import Mathlib

/-!
Verification of the datapack structural data-packing library.

This file shallowly embeds the parts of the library that the checked
properties talk about:

* the dynamic `Object` tree value model (`Value`), with the merge/diff
  algebra (`object_merge` / `object_diff` are declared in
  `include/datapack/object.hpp` but their bodies are not part of the
  sources, so those two functions are modelled from the spec);
* the binary-schema token alphabet `BTok` and the subtree-end helper
  `get_tokens_end` from `src/format/binary_schema.cpp`;
* the schema-driven decoder state machine `load_binary` from the same
  file, driving a modelled `BinaryReader` and recording the calls made
  on the target `ObjectWriter` as a trace;
* the `Token` label table from `src/schema/token.cpp`;
* the labelled-variant helpers from `include/datapack/labelled_variant.hpp`;
* the `std::string` primitive packer from `include/datapack/common/primitive.hpp`
  and the `Object_::get_if` accessor from `include/datapack/object.hpp`.
-/

namespace Datapack

/-! ## The Object tree value model

`_object::value_t` in `include/datapack/object.hpp` is a variant of
INT64, FLOAT64, BOOL, STRING, NULL, BINARY, MAP and LIST.  A node tree
whose root holds a MAP or LIST value is represented here directly as a
tree: the children of a MAP node (unique keys, insertion order kept)
become an association list, the children of a LIST node become a list.
FLOAT64 payloads are carried as their 64-bit patterns; the claims
checked here never compute with them. -/
inductive Value where
  | int (i : Int)
  | float (bits : Nat)
  | bool (b : Bool)
  | str (s : String)
  | null
  | binary (bs : List Nat)
  | map (entries : List (String × Value))
  | list (items : List Value)

/-- First value stored under key `k`; `Value.null` when the key is
absent (an absent key and a NULL value are the same thing for the
merge/diff algebra). -/
def lookupV (k : String) : List (String × Value) → Value
  | [] => .null
  | (k2, v) :: t => if k2 = k then v else lookupV k t

/-- First value stored under key `k`, or `none` when absent. -/
def lookupO (k : String) : List (String × Value) → Option Value
  | [] => none
  | (k2, v) :: t => if k2 = k then some v else lookupO k t

/-- Whether some entry carries key `k`. -/
def hasKey (k : String) : List (String × Value) → Bool
  | [] => false
  | (k2, _) :: t => k2 = k || hasKey k t

/-- Size bound used for termination: a value found by `lookupV` is no
larger than the entry list it came from. -/
def sizeOf_lookupV_le (k : String) : ∀ es : List (String × Value), sizeOf (lookupV k es) ≤ 1 + sizeOf es := by
  intro es
  induction es with
  | nil => simp [lookupV]
  | cons e t ih =>
    obtain ⟨k2, v⟩ := e
    by_cases h : k2 = k
    · simp only [lookupV, if_pos h]
      simp
      omega
    · simp only [lookupV, if_neg h]
      have := ih
      simp
      omega

/-- Size bound used for termination: a value found by `lookupO` is
strictly smaller than the entry list it came from. -/
def sizeOf_lookupO_lt (k : String) : ∀ es : List (String × Value), ∀ v, lookupO k es = some v → sizeOf v < sizeOf es := by
  intro es
  induction es with
  | nil => intro v h; simp [lookupO] at h
  | cons e t ih =>
    obtain ⟨k2, w⟩ := e
    intro v h
    by_cases hk : k2 = k
    · simp only [lookupO, if_pos hk, Option.some.injEq] at h
      subst h
      simp
      omega
    · simp only [lookupO, if_neg hk] at h
      have := ih v h
      simp
      omega

/-- Size bound used for termination: an element read out of a list is
strictly smaller than the list. -/
def sizeOf_getElem?_lt : ∀ (l : List Value) (i : Nat) (v : Value), l[i]? = some v → sizeOf v < sizeOf l := by
  intro l
  induction l with
  | nil => intro i v h; simp at h
  | cons a t ih =>
    intro i v h
    cases i with
    | zero =>
      simp at h
      subst h
      simp
      omega
    | succ n =>
      simp at h
      have := ih n v h
      simp
      omega

/-- Size bound used for termination: an indexed read with a `null`
default. -/
def sizeOf_getD_le : ∀ (l : List Value) (i : Nat), sizeOf ((l[i]?).getD Value.null) ≤ sizeOf l := by
  intro l
  induction l with
  | nil =>
    intro i
    simp
  | cons a t ih =>
    intro i
    cases i with
    | zero => simp; omega
    | succ n =>
      have := ih n
      simp at this ⊢
      omega

/-! ## Null-equivalence, structural equality, well-formedness

The merge/diff contract in `include/datapack/object.hpp` (lines
220-251) treats a NULL value as equivalent to an absent key and a map
containing only NULL values as equivalent to an absent map. -/

mutual

/-- Whether a value is equivalent to NULL: NULL itself, or a map all of
whose values are. -/
def isNullish : Value → Bool
  | .null => true
  | .map es => nullishE es
  | _ => false

/-- All entry values equivalent to NULL. -/
def nullishE : List (String × Value) → Bool
  | [] => true
  | (_, v) :: t => isNullish v && nullishE t

end

mutual

/-- Structural equality of Object trees up to the NULL-equals-absent
convention: scalars by payload, maps by two-sided key lookup (so entry
order is irrelevant and NULL-valued keys match absent ones), lists
pointwise with trailing NULL-equivalent elements matching absence. -/
def veq : Value → Value → Bool
  | .int a, .int b => a == b
  | .float a, .float b => a == b
  | .bool a, .bool b => a == b
  | .str a, .str b => a == b
  | .binary a, .binary b => a == b
  | .null, b => isNullish b
  | a, .null => isNullish a
  | .map as, .map bs => subE as bs && subE bs as
  | .list as, .list bs => veqL as bs
  | _, _ => false
termination_by a b => sizeOf a + sizeOf b
decreasing_by
  all_goals simp_wf
  all_goals omega

/-- Every entry of the first map matches the lookup of its key in the
second (an absent key reads as NULL). -/
def subE : List (String × Value) → List (String × Value) → Bool
  | [], _ => true
  | (k, v) :: t, bs =>
    (match h : lookupO k bs with
     | some w => veq v w
     | none => isNullish v) && subE t bs
termination_by t bs => sizeOf t + sizeOf bs
decreasing_by
  all_goals simp_wf
  all_goals
    first
      | omega
      | (have hlt := sizeOf_lookupO_lt _ _ _ h; omega)

/-- Pointwise equality of list elements; a missing tail matches a
NULL-equivalent one. -/
def veqL : List Value → List Value → Bool
  | [], [] => true
  | [], b :: bs => isNullish b && veqL [] bs
  | a :: as, [] => isNullish a && veqL as []
  | a :: as, b :: bs => veq a b && veqL as bs
termination_by as bs => sizeOf as + sizeOf bs
decreasing_by
  all_goals simp_wf
  all_goals omega

end

/-- The per-entry condition `subE` checks: the entry's value matches
the lookup of its key (absent key = NULL). -/
def entOK (BS : List (String × Value)) (p : String × Value) : Bool :=
  match lookupO p.1 BS with
  | some w => veq p.2 w
  | none => isNullish p.2

/-- Keys of the entries are pairwise distinct. -/
def nodupKeys : List (String × Value) → Bool
  | [] => true
  | (k, _) :: t => !hasKey k t && nodupKeys t

mutual

/-- Well-formed Object tree: every map has pairwise-distinct keys
(`insert` raises `DuplicateKey` otherwise). -/
def wfV : Value → Bool
  | .map es => nodupKeys es && wfE es
  | .list vs => wfL vs
  | _ => true

/-- Well-formedness of map entries. -/
def wfE : List (String × Value) → Bool
  | [] => true
  | (_, v) :: t => wfV v && wfE t

/-- Well-formedness of list elements. -/
def wfL : List Value → Bool
  | [] => true
  | v :: t => wfV v && wfL t

end

/-! ## Decimal keys for list diffs -/

/-- Little-endian decimal digits, with explicit fuel (`n` itself
suffices since `n / 10 < n`). -/
def natDigitsGo : Nat → Nat → List Nat
  | 0, _ => []
  | fuel + 1, n => if n = 0 then [] else n % 10 :: natDigitsGo fuel (n / 10)

/-- Little-endian decimal digits of `n`; empty for 0. -/
def natDigits (n : Nat) : List Nat := natDigitsGo n n

/-- The character of one decimal digit. -/
def digitChar (d : Nat) : Char := Char.ofNat (48 + d)

/-- `std::to_string` of an index: the decimal key used by list
diffs. -/
def natKey (n : Nat) : String :=
  if n = 0 then "0" else String.mk (((natDigits n).map digitChar).reverse)

/-! ## object_diff

Modelled from the spec (the bodies of `object_diff` / `object_merge`
are not part of the sources; the rules come from §4.2 of the spec and
the contract comment in `include/datapack/object.hpp` lines 220-251):

* at a shared key, an unchanged value (up to NULL-equivalence)
  contributes nothing; a changed value contributes the recursive diff
  when both sides are maps or both are lists, and the modified value
  itself otherwise;
* a key absent (or NULL-equivalent) in the modified side contributes a
  NULL entry, meaning "erase this key";
* keys present only in the modified side are appended verbatim;
* for lists, the diff is a map keyed by the decimal index: unchanged
  indices are missing, indices past the modified length map to NULL
  (the tail-rewrite encoding for erasure), indices past the base length
  carry the appended element. -/

/-- Entries for keys that are present (non-NULL) in the modified map
but absent (or NULL-equivalent) in the base. -/
def diffNewKeys (bs : List (String × Value)) : List (String × Value) → List (String × Value)
  | [] => []
  | (k, mv) :: t =>
    if !isNullish mv && isNullish (lookupV k bs) then (k, mv) :: diffNewKeys bs t
    else diffNewKeys bs t

mutual

/-- `object_diff(base, modified)`. -/
def diffV : Value → Value → Value
  | .map bs, .map ms => .map (diffMapsGo bs ms ++ diffNewKeys bs ms)
  | .list bs, .list ms => .map (diffListsGo bs ms 0 (max bs.length ms.length))
  | _, m => m
termination_by b m => (sizeOf b + sizeOf m, 0)
decreasing_by
  all_goals simp_wf
  all_goals apply Prod.Lex.left
  all_goals omega

/-- Diff entries arising from the keys of the base map (an absent
modified key reads as NULL, hence an erase entry). -/
def diffMapsGo : List (String × Value) → List (String × Value) → List (String × Value)
  | [], _ => []
  | (k, bv) :: t, ms =>
    if isNullish bv then diffMapsGo t ms
    else
      match h : lookupO k ms with
      | none => (k, Value.null) :: diffMapsGo t ms
      | some mv =>
        if isNullish mv then (k, Value.null) :: diffMapsGo t ms
        else if veq bv mv then diffMapsGo t ms
        else (k, diffV bv mv) :: diffMapsGo t ms
termination_by t ms => (sizeOf t + sizeOf ms, 0)
decreasing_by
  all_goals simp_wf
  all_goals apply Prod.Lex.left
  all_goals
    first
      | omega
      | (have hlt := sizeOf_lookupO_lt _ _ _ h; omega)

/-- Diff entries for list positions `i, i+1, …, i+n-1`. -/
def diffListsGo (bs ms : List Value) : Nat → Nat → List (String × Value)
  | _, 0 => []
  | i, n + 1 =>
    match h1 : bs[i]?, h2 : ms[i]? with
    | some bv, some mv =>
      if veq bv mv then diffListsGo bs ms (i + 1) n
      else (natKey i, diffV bv mv) :: diffListsGo bs ms (i + 1) n
    | some _, none => (natKey i, Value.null) :: diffListsGo bs ms (i + 1) n
    | none, some mv => (natKey i, mv) :: diffListsGo bs ms (i + 1) n
    | none, none => diffListsGo bs ms (i + 1) n
termination_by i n => (sizeOf bs + sizeOf ms, n)
decreasing_by
  all_goals simp_wf
  all_goals
    first
      | (apply Prod.Lex.right; omega)
      | (have ha := sizeOf_getElem?_lt bs i _ h1
         have hb := sizeOf_getElem?_lt ms i _ h2
         apply Prod.Lex.left
         omega)

end

/-- The diff entry (if any) that `diffListsGo` generates for position
`i`. -/
def dEnt (bs ms : List Value) (i : Nat) : Option Value :=
  match bs[i]?, ms[i]? with
  | some bv, some mv => if veq bv mv then none else some (diffV bv mv)
  | some _, none => some Value.null
  | none, some mv => some mv
  | none, none => none

/-! ## object_merge

Modelled from the spec (same provenance as `object_diff`):

* a diff map over a base map merges keywise: matched keys merge
  recursively, unmatched base keys stay, new diff keys are appended (a
  NULL diff value erases the key; erasure is represented by the
  NULL value itself, which the NULL-equals-absent convention makes
  identical);
* a diff map over a base list is an index patch: each decimal key
  addresses a position, missing positions keep the base element, gaps
  and erased tails are NULL;
* any other diff value overwrites the base wholesale. -/

/-- Diff entries whose key is not in the base map (appended in
order). -/
def newEntries (bs : List (String × Value)) : List (String × Value) → List (String × Value)
  | [] => []
  | (k, dv) :: t =>
    if hasKey k bs then newEntries bs t else (k, dv) :: newEntries bs t

mutual

/-- `object_merge(base, diff)`. -/
def mergeV : Value → Value → Value
  | .map bs, .map ds => .map (mergeMapsGo bs ds ++ newEntries bs ds)
  | .list bs, .map ds => .list (mergeListGo bs ds 0 (bs.length + ds.length))
  | _, d => d
termination_by b d => (sizeOf b + sizeOf d, 0)
decreasing_by
  all_goals simp_wf
  all_goals apply Prod.Lex.left
  all_goals omega

/-- The base map's entries after applying the diff keywise. -/
def mergeMapsGo : List (String × Value) → List (String × Value) → List (String × Value)
  | [], _ => []
  | (k, bv) :: t, ds =>
    (k, match h : lookupO k ds with
        | some dv => mergeV bv dv
        | none => bv) :: mergeMapsGo t ds
termination_by t ds => (sizeOf t + sizeOf ds, 0)
decreasing_by
  all_goals simp_wf
  all_goals
    first
      | (apply Prod.Lex.left; omega)
      | (have hlt := sizeOf_lookupO_lt _ _ _ h
         apply Prod.Lex.left
         omega)

/-- Elements `i, i+1, …, i+n-1` of the patched list; `n` starts at an
upper bound of every index addressed by the patch, and the trailing
NULLs this overapproximation produces are absent elements under the
NULL-equals-absent convention. -/
def mergeListGo (bs : List Value) (ds : List (String × Value)) : Nat → Nat → List Value
  | _, 0 => []
  | i, n + 1 =>
    (match h : lookupO (natKey i) ds with
     | some dv => mergeV ((bs[i]?).getD Value.null) dv
     | none => (bs[i]?).getD Value.null) :: mergeListGo bs ds (i + 1) n
termination_by i n => (sizeOf bs + sizeOf ds, n)
decreasing_by
  all_goals simp_wf
  all_goals
    first
      | (apply Prod.Lex.right; omega)
      | (have h1 := sizeOf_getD_le bs i
         have h2 := sizeOf_lookupO_lt _ _ _ h
         apply Prod.Lex.left
         omega)

end

/-! ## The compatibility condition for the round-trip law

A diff produced on a list base is a map (the index patch), so a map in
the modified tree standing where the base holds a list cannot be told
apart from a patch; the round-trip law holds away from that
collision. -/
mutual

/-- No position holds a list in the base and a map in the modified
tree. -/
def compat : Value → Value → Bool
  | .list _, .map _ => false
  | .map bs, .map ms => compatE bs ms
  | .list bs, .list ms => compatL bs ms
  | _, _ => true
termination_by b m => sizeOf b + sizeOf m
decreasing_by
  all_goals simp_wf
  all_goals omega

/-- Keywise compatibility of two maps (a key absent on either side is
compatible with anything). -/
def compatE : List (String × Value) → List (String × Value) → Bool
  | [], _ => true
  | (k, bv) :: t, ms =>
    (match h : lookupO k ms with
     | some mv => compat bv mv
     | none => true) && compatE t ms
termination_by t ms => sizeOf t + sizeOf ms
decreasing_by
  all_goals simp_wf
  all_goals
    first
      | omega
      | (have hlt := sizeOf_lookupO_lt _ _ _ h; omega)

/-- Pointwise compatibility of two lists. -/
def compatL : List Value → List Value → Bool
  | [], _ => true
  | _ :: _, [] => true
  | b :: bs, m :: ms => compat b m && compatL bs ms
termination_by bs ms => sizeOf bs + sizeOf ms
decreasing_by
  all_goals simp_wf
  all_goals omega

end

/-! ## The binary-schema token alphabet

`BToken` in the binary-schema machine (`src/format/binary_schema.cpp`)
is a variant whose alternatives are the primitive C++ types together
with the `btoken` marker structs the decoder dispatches on.  Payloads
the machine never reads are dropped. -/
inductive BTok where
  | i32
  | i64
  | u32
  | u64
  | f32
  | f64
  | strT
  | boolT
  | enumerate (labels : List String)
  | optional
  | variantBegin (labels : List String)
  | variantEnd
  | variantNext (type_ : String)
  | binary (stride : Nat)
  | binaryBegin
  | binaryEnd
  | objectBegin
  | objectEnd
  | objectNext (key : String)
  | tupleBegin
  | tupleEnd
  | tupleNext
  | list
  | map
deriving Repr, DecidableEq

/-- `BinarySchema` from `datapack/format/binary_schema.hpp`: an ordered
token sequence. -/
structure BinarySchema where
  tokens : List BTok
deriving Repr, DecidableEq

/-- Result of `get_tokens_end`: a position, the `LoadException` thrown
on a malformed schema, or fuel exhaustion (the C++ loop has no fuel;
every non-exiting iteration advances `pos`, so with fuel
`tokens.length + 1` this outcome is unreachable). -/
inductive GteRes where
  | ok (pos : Nat)
  | invalid
  | fuelout
deriving Repr, DecidableEq

/-- `depth` in `get_tokens_end` is a `std::size_t`; decrementing it at
zero wraps around modulo `2^64`. -/
def decU64 (d : Nat) : Nat := (d + (2 ^ 64 - 1)) % 2 ^ 64

/-- Loop body of `get_tokens_end` (`src/format/binary_schema.cpp`,
lines 9-75), translated iteration by iteration.  The loop head checks
`depth == 0 && pos != begin` and breaks; the `Map`, `List` and
`Optional` cases `continue`; the four `Begin` tokens increment the
depth and `continue`; the four `End` tokens decrement it and fall
through to the `depth == 0` check at the bottom, as does every other
token. -/
def gteGo (tokens : List BTok) (tbegin : Nat) : Nat → Nat → Nat → GteRes
  | 0, _, _ => .fuelout
  | fuel + 1, pos, depth =>
    if depth = 0 ∧ pos ≠ tbegin then .ok pos
    else if h : pos < tokens.length then
      let token := tokens.get ⟨pos, h⟩
      match token with
      | .map | .list | .optional => gteGo tokens tbegin fuel (pos + 1) depth
      | .objectBegin | .tupleBegin | .variantBegin _ | .binaryBegin =>
        gteGo tokens tbegin fuel (pos + 1) (depth + 1)
      | .objectEnd | .tupleEnd | .variantEnd | .binaryEnd =>
        if decU64 depth = 0 then .ok (pos + 1)
        else gteGo tokens tbegin fuel (pos + 1) (decU64 depth)
      | _ =>
        if depth = 0 then .ok (pos + 1)
        else gteGo tokens tbegin fuel (pos + 1) depth
    else .invalid

/-- `get_tokens_end(tokens, begin)`: position just past the region the
loop scans starting at `begin`. -/
def getTokensEnd (tokens : List BTok) (tbegin : Nat) : GteRes :=
  gteGo tokens tbegin (tokens.length + 1) tbegin 0

/-! ## The BinaryReader

Modelled from the spec: `BinaryReader` (`datapack/format/binary.hpp` is
not part of the sources) consumes a byte slice and advances an offset;
the wire format is little-endian and untagged, with a U64 byte count
before strings, a one-byte presence flag for optionals, a U32 arm index
for variants, a U64 count before binary payloads, and a U8 continuation
byte before each list or map element. -/
structure RState where
  data : List Nat
  pos : Nat
  error : Bool
  variantLabels : List String
  variantIndex : Nat
  binSize : Nat
deriving Repr, DecidableEq

/-- Fresh reader over a byte vector. -/
def RState.init (data : List Nat) : RState := ⟨data, 0, false, [], 0, 0⟩

/-- Modelled from the spec: reading one byte; on underflow the reader
sets its failure flag and yields the zero value instead of raising. -/
def readByte (r : RState) : RState × Nat :=
  match r.data[r.pos]? with
  | some b => ({ r with pos := r.pos + 1 }, b)
  | none => ({ r with error := true }, 0)

/-- Reading `n` consecutive bytes. -/
def readBytes : RState → Nat → RState × List Nat
  | r, 0 => (r, [])
  | r, n + 1 =>
    let (r1, b) := readByte r
    let (r2, bs) := readBytes r1 n
    (r2, b :: bs)

/-- Little-endian value of a byte list. -/
def leValue (bs : List Nat) : Nat := bs.foldr (fun b acc => b + 256 * acc) 0

/-- Modelled from the spec: fixed-width little-endian U32. -/
def readU32 (r : RState) : RState × Nat :=
  let (r1, bs) := readBytes r 4
  (r1, leValue bs)

/-- Modelled from the spec: fixed-width little-endian U64. -/
def readU64 (r : RState) : RState × Nat :=
  let (r1, bs) := readBytes r 8
  (r1, leValue bs)

/-- Bytes to text, one character per byte. -/
def stringOfBytes (bs : List Nat) : String := String.mk (bs.map (fun b => Char.ofNat b))

/-- Modelled from the spec: a string is a U64 byte count then raw
bytes, no terminator. -/
def readString (r : RState) : RState × String :=
  let (r1, n) := readU64 r
  let (r2, bs) := readBytes r1 n
  (r2, stringOfBytes bs)

/-- Modelled from the spec: `optional()` reads the one-byte presence
flag. -/
def RState.optionalFlag (r : RState) : RState × Bool :=
  let (r1, b) := readByte r
  (r1, b ≠ 0)

/-- Modelled from the spec: `list_next()` reads the U8 continuation
byte before each element. -/
def RState.listNext (r : RState) : RState × Bool :=
  let (r1, b) := readByte r
  (r1, b ≠ 0)

/-- Modelled from the spec: `map_next(key)` reads the continuation
byte, then the string key when an entry follows. -/
def RState.mapNext (r : RState) : RState × Bool × String :=
  let (r1, b) := readByte r
  if b ≠ 0 then
    let (r2, k) := readString r1
    (r2, true, k)
  else (r1, false, "")

/-- Modelled from the spec: `variant_begin(labels)` reads the U32 index
of the chosen arm. -/
def RState.variantBegin (r : RState) (labels : List String) : RState :=
  let (r1, idx) := readU32 r
  { r1 with variantLabels := labels, variantIndex := idx }

/-- Modelled from the spec: `variant_match(label)` reports whether the
label equals the arm chosen by the index read at `variant_begin`. -/
def RState.variantMatch (r : RState) (label : String) : Bool :=
  r.variantLabels.getD r.variantIndex "" = label

/-- Modelled from the spec: `binary_size(stride)` reads a U64; with a
non-zero stride the U64 is an element count and the byte size is
`count * stride`. -/
def RState.binarySize (r : RState) (stride : Nat) : RState × Nat :=
  let (r1, w) := readU64 r
  let size := if stride = 0 then w else w * stride
  ({ r1 with binSize := size }, size)

/-- Modelled from the spec: `binary_data(ptr)` copies the byte payload
announced by the preceding `binary_size` call. -/
def RState.binaryData (r : RState) : RState × List Nat := readBytes r r.binSize

/-! ## The load_binary state machine

`load_binary` (`src/format/binary_schema.cpp`, lines 77-293) drives the
reader and an `ObjectWriter` across the schema.  The writer is
represented by the ordered list of calls the machine makes on it. -/

/-- A call made on the target `ObjectWriter`. -/
inductive WOp where
  | int (v : Int)
  | float (bits : Nat)
  | boolV (b : Bool)
  | strV (s : String)
  | optional (b : Bool)
  | mapBegin
  | mapEnd
  | mapNext (key : String)
  | listBegin
  | listEnd
  | listNext
  | objectBegin
  | objectEnd
  | objectNext (key : String)
  | tupleBegin
  | tupleEnd
  | tupleNext
  | variantBegin (label : String) (labels : List String)
  | variantEnd
  | binary (size : Nat) (bytes : List Nat) (stride : Nat)
deriving Repr, DecidableEq

/-- `StateType` of the decoder. -/
inductive FrameType where
  | noneT
  | mapT
  | listT
  | optionalT
  | variantT
  | binaryT
deriving Repr, DecidableEq

/-- `State` of the decoder: the token range of the child subtree and
the `done` flag used for optional, variant and binary. -/
structure Frame where
  type : FrameType
  valueTokensBegin : Nat
  valueTokensEnd : Nat
  done : Bool
deriving Repr, DecidableEq

/-- Full machine state: schema tokens, reader, writer trace, frame
stack (head is the top) and `token_pos`. -/
structure MState where
  tokens : List BTok
  reader : RState
  trace : List WOp
  states : List Frame
  tokenPos : Nat
deriving Repr, DecidableEq

/-- Outcome of one iteration of the decoder loop. -/
inductive StepRes where
  | cont (s : MState)
  | stop (s : MState)
  | err (msg : String)
  | crash
deriving Repr, DecidableEq

/-- Outcome of the `VariantBegin` scan loop. -/
inductive VScanRes where
  | err (msg : String)
  | brk (tokenPos : Nat) (found : Bool) (variantStart : Nat) (wops : List WOp)
  | crash
  | fuelout
deriving Repr, DecidableEq

/-- The scan loop inside the `VariantBegin` case (lines 249-267),
translated branch by branch.  On a `VariantNext` token the code runs
the match logic, moves `token_pos` past the arm's subtree, and then
falls through to the unconditional
`throw LoadException("Invalid binary schema")` at the bottom of the
loop body; only the `VariantEnd` branch `break`s past it. -/
def variantScan (tokens : List BTok) (r : RState) (labels : List String) :
    Nat → Nat → Bool → Nat → List WOp → VScanRes
  | 0, _, _, _, _ => .fuelout
  | _fuel + 1, tokenPos, found, variantStart, wops =>
    match tokens[tokenPos]? with
    | none => .crash
    | some token =>
      let tokenPos1 := tokenPos + 1
      match token with
      | .variantNext t =>
        if r.variantMatch t ∧ found then .err "Repeated variant labels"
        else
          let _found1 := r.variantMatch t || found
          let _variantStart1 := if r.variantMatch t then tokenPos1 else variantStart
          let _wops1 := if r.variantMatch t then wops ++ [WOp.variantBegin t labels] else wops
          match getTokensEnd tokens tokenPos1 with
          | .ok _ => .err "Invalid binary schema"
          | .invalid => .err "Invalid binary schema"
          | .fuelout => .crash
      | .variantEnd => .brk tokenPos1 found variantStart wops
      | _ => .err "Invalid binary schema"

/-- The token dispatch in the second half of the loop body (lines
169-289).  Reading `schema.tokens[token_pos]` out of range is undefined
behaviour in the C++ and is reported as `crash`; it is reachable
because the `Binary` case advances `token_pos` twice. -/
def dispatch (s0 : MState) : StepRes :=
  match s0.tokens[s0.tokenPos]? with
  | none => .crash
  | some token =>
    let s := { s0 with tokenPos := s0.tokenPos + 1 }
    match token with
    | .objectBegin =>
      .cont { s with states := ⟨.noneT, 0, 0, false⟩ :: s.states,
                     trace := s.trace ++ [.objectBegin] }
    | .objectEnd =>
      match s.states with
      | [] => .crash
      | _ :: rest => .cont { s with states := rest, trace := s.trace ++ [.objectEnd] }
    | .objectNext key => .cont { s with trace := s.trace ++ [.objectNext key] }
    | .tupleBegin =>
      .cont { s with states := ⟨.noneT, 0, 0, false⟩ :: s.states,
                     trace := s.trace ++ [.tupleBegin] }
    | .tupleEnd =>
      match s.states with
      | [] => .crash
      | _ :: rest => .cont { s with states := rest, trace := s.trace ++ [.tupleEnd] }
    | .tupleNext => .cont { s with trace := s.trace ++ [.tupleNext] }
    | .map =>
      match getTokensEnd s.tokens s.tokenPos with
      | .ok e =>
        .cont { s with trace := s.trace ++ [.mapBegin],
                       states := ⟨.mapT, s.tokenPos, e, false⟩ :: s.states }
      | .invalid => .err "Invalid binary schema"
      | .fuelout => .crash
    | .list =>
      match getTokensEnd s.tokens s.tokenPos with
      | .ok e =>
        .cont { s with trace := s.trace ++ [.listBegin],
                       states := ⟨.listT, s.tokenPos, e, false⟩ :: s.states }
      | .invalid => .err "Invalid binary schema"
      | .fuelout => .crash
    | .optional =>
      match getTokensEnd s.tokens s.tokenPos with
      | .ok e =>
        .cont { s with states := ⟨.optionalT, s.tokenPos, e, false⟩ :: s.states }
      | .invalid => .err "Invalid binary schema"
      | .fuelout => .crash
    | .variantBegin labels =>
      let r1 := s.reader.variantBegin labels
      match variantScan s.tokens r1 labels (s.tokens.length + 1) s.tokenPos false 0 [] with
      | .err m => .err m
      | .crash => .crash
      | .fuelout => .crash
      | .brk tokenPos1 found variantStart wops =>
        if ¬found then .err "No matching variant"
        else
          .cont { s with reader := r1, trace := s.trace ++ wops, tokenPos := tokenPos1,
                         states := ⟨.variantT, variantStart, tokenPos1, false⟩ :: s.states }
    | .binary stride =>
      let (r1, size) := s.reader.binarySize stride
      let s1 := { s with reader := r1, tokenPos := s.tokenPos + 1 }
      if stride = 0 then
        let (r2, bytes) := r1.binaryData
        .cont { s1 with reader := r2, trace := s1.trace ++ [.binary size bytes 0] }
      else
        .cont s1
    | .i32 => .cont s
    | _ => .cont s

/-- One iteration of the main `while` loop: the exit test, the frame
consultation (lines 112-167, including the inverted `Optional` branch
and the never-set `done` flag, kept exactly as written), then the token
dispatch for the branches that fall through. -/
def loadStep (s : MState) : StepRes :=
  if s.tokenPos = s.tokens.length then .stop s
  else
    match s.states with
    | [] => .crash
    | frame :: rest =>
      match frame.type with
      | .mapT =>
        let (r1, has, key) := s.reader.mapNext
        if ¬has then
          .cont { s with reader := r1, trace := s.trace ++ [.mapEnd],
                         tokenPos := frame.valueTokensEnd, states := rest }
        else
          dispatch { s with reader := r1, trace := s.trace ++ [.mapNext key],
                            tokenPos := frame.valueTokensBegin }
      | .listT =>
        let (r1, has) := s.reader.listNext
        if ¬has then
          .cont { s with reader := r1, trace := s.trace ++ [.listEnd],
                         tokenPos := frame.valueTokensEnd, states := rest }
        else
          dispatch { s with reader := r1, trace := s.trace ++ [.listNext],
                            tokenPos := frame.valueTokensBegin }
      | .optionalT =>
        let (r1, has) := if frame.done then (s.reader, false) else s.reader.optionalFlag
        let tr1 := if frame.done then s.trace else s.trace ++ [.optional has]
        if has then
          .cont { s with reader := r1, trace := tr1,
                         tokenPos := frame.valueTokensEnd, states := rest }
        else
          dispatch { s with reader := r1, trace := tr1,
                            tokenPos := frame.valueTokensBegin }
      | .variantT =>
        if frame.done then
          .cont { s with trace := s.trace ++ [.variantEnd],
                         tokenPos := frame.valueTokensEnd, states := rest }
        else
          dispatch { s with tokenPos := frame.valueTokensBegin,
                            states := { frame with done := true } :: rest }
      | .binaryT =>
        if frame.done then
          .cont { s with tokenPos := frame.valueTokensEnd, states := rest }
        else
          dispatch { s with states := { frame with done := true } :: rest }
      | .noneT => dispatch s

/-- Outcome of a full run of the decoder. -/
inductive RunRes where
  | ok (s : MState)
  | err (msg : String)
  | crash
  | fuelout
deriving Repr, DecidableEq

/-- Iterating the loop body. -/
def loadRun : Nat → MState → RunRes
  | 0, _ => .fuelout
  | fuel + 1, s =>
    match loadStep s with
    | .stop s1 => .ok s1
    | .cont s1 => loadRun fuel s1
    | .err m => .err m
    | .crash => .crash

/-- Initial machine state: default `Object`, writer over it, fresh
reader, a single `None` frame, `token_pos = 0`. -/
def initM (schema : BinarySchema) (data : List Nat) : MState :=
  ⟨schema.tokens, RState.init data, [], [⟨.noneT, 0, 0, false⟩], 0⟩

/-- `load_binary(schema, data)` with enough fuel for the runs examined
here (the C++ loop itself has no bound). -/
def loadBinary (schema : BinarySchema) (data : List Nat) : RunRes :=
  loadRun ((schema.tokens.length + 2) * (data.length + 2) + 8) (initM schema data)

/-! ## From writer calls back to an Object

Modelled from the spec: `ObjectWriter` (`datapack/util/object.hpp` is
not part of the sources) materializes an Object tree from the packer
calls it receives — a pending key consumed by the next value, maps and
objects becoming MAP nodes, lists and tuples becoming LIST nodes, an
absent optional becoming NULL.  The interpreter below turns a recorded
call trace into the tree the writer would have built; an empty trace
leaves the default `Object` untouched (the empty handle), rendered as
`none`. -/
mutual

/-- One value from the head of a trace. -/
def parseVal : Nat → List WOp → Option (Value × List WOp)
  | 0, _ => none
  | fuel + 1, ops =>
    match ops with
    | .int v :: rest => some (.int v, rest)
    | .float b :: rest => some (.float b, rest)
    | .boolV b :: rest => some (.bool b, rest)
    | .strV s :: rest => some (.str s, rest)
    | .binary _ bytes _ :: rest => some (.binary bytes, rest)
    | .optional false :: rest => some (.null, rest)
    | .optional true :: rest => parseVal fuel rest
    | .variantBegin _ _ :: rest =>
      match parseVal fuel rest with
      | some (v, .variantEnd :: rest1) => some (v, rest1)
      | _ => none
    | .objectBegin :: rest => parseObj fuel rest []
    | .mapBegin :: rest => parseMap fuel rest []
    | .listBegin :: rest => parseList fuel rest []
    | .tupleBegin :: rest => parseTuple fuel rest []
    | _ => none

/-- Fields of an object node, each introduced by `object_next(key)`. -/
def parseObj : Nat → List WOp → List (String × Value) → Option (Value × List WOp)
  | 0, _, _ => none
  | fuel + 1, ops, acc =>
    match ops with
    | .objectEnd :: rest => some (.map acc, rest)
    | .objectNext k :: rest =>
      match parseVal fuel rest with
      | some (v, rest1) => parseObj fuel rest1 (acc ++ [(k, v)])
      | none => none
    | _ => none

/-- Entries of a map node, each introduced by `map_next(key)`. -/
def parseMap : Nat → List WOp → List (String × Value) → Option (Value × List WOp)
  | 0, _, _ => none
  | fuel + 1, ops, acc =>
    match ops with
    | .mapEnd :: rest => some (.map acc, rest)
    | .mapNext k :: rest =>
      match parseVal fuel rest with
      | some (v, rest1) => parseMap fuel rest1 (acc ++ [(k, v)])
      | none => none
    | _ => none

/-- Elements of a list node, each introduced by `list_next()`. -/
def parseList : Nat → List WOp → List Value → Option (Value × List WOp)
  | 0, _, _ => none
  | fuel + 1, ops, acc =>
    match ops with
    | .listEnd :: rest => some (.list acc, rest)
    | .listNext :: rest =>
      match parseVal fuel rest with
      | some (v, rest1) => parseList fuel rest1 (acc ++ [v])
      | none => none
    | _ => none

/-- Elements of a tuple, each introduced by `tuple_next()`. -/
def parseTuple : Nat → List WOp → List Value → Option (Value × List WOp)
  | 0, _, _ => none
  | fuel + 1, ops, acc =>
    match ops with
    | .tupleEnd :: rest => some (.list acc, rest)
    | .tupleNext :: rest =>
      match parseVal fuel rest with
      | some (v, rest1) => parseTuple fuel rest1 (acc ++ [v])
      | none => none
    | _ => none

end

/-- The Object a recorded writer trace denotes; `none` when the trace
builds no complete root value (in particular for the empty trace, which
leaves the default-constructed empty `Object` handle). -/
def objectFromTrace (ops : List WOp) : Option Value :=
  match parseVal (ops.length + 1) ops with
  | some (v, []) => some v
  | _ => none

/-- The Object produced by a `load_binary` run, when it returns. -/
def loadBinaryObject (schema : BinarySchema) (data : List Nat) : Option Value :=
  match loadBinary schema data with
  | .ok s => objectFromTrace s.trace
  | _ => none

/-! ## A concrete visitable type for the schema/direct comparison

`std::int32_t` is visitable through
`DATAPACK_INLINE(std::int32_t, packer, value) { packer.primitive(I32, &value); }`
(`include/datapack/common/primitive.hpp`). -/

/-- Schema of `std::int32_t`: the Definer records the single primitive
call as one `i32` token. -/
def schemaOfI32 : BinarySchema := ⟨[.i32]⟩

/-- Modelled from the spec: `write_binary` on an `int32` emits the
4-byte little-endian two's-complement pattern
(`datapack/format/binary.hpp` is not part of the sources). -/
def writeBinaryI32 (n : Int) : List Nat :=
  let m := (n % 2 ^ 32).toNat
  [m % 256, m / 256 % 256, m / 256 ^ 2 % 256, m / 256 ^ 3 % 256]

/-- Modelled from the spec: `write_object` on an `int32` produces a
single INT64 node (`datapack/util/object.hpp` is not part of the
sources). -/
def writeObjectI32 (n : Int) : Value := .int n

/-! ## The Token label table (src/schema/token.cpp)

The `Token` alphabet itself (`datapack/schema/token.hpp` is not part of
the sources) is modelled from the spec: I32, I64, U32, U64, F32, F64,
String, Bool, Optional, Enumerate, VariantBegin, VariantEnd,
VariantNext, BinaryData, TrivialBegin, TrivialEnd, ObjectBegin,
ObjectEnd, ObjectNext, TupleBegin, TupleEnd, TupleNext, List, Map. -/
inductive Token where
  | i32
  | i64
  | u32
  | u64
  | f32
  | f64
  | strT
  | boolT
  | optional
  | enumerate (labels : List String)
  | variantBegin (labels : List String)
  | variantEnd
  | variantNext (type_ : String)
  | binaryData
  | trivialBegin (size : Nat)
  | trivialEnd (size : Nat)
  | objectBegin
  | objectEnd
  | objectNext (key : String)
  | tupleBegin
  | tupleEnd
  | tupleNext
  | list
  | map
deriving Repr, DecidableEq

/-- `std::variant::index()` of a `Token`. -/
def tokenIndex : Token → Nat
  | .i32 => 0
  | .i64 => 1
  | .u32 => 2
  | .u64 => 3
  | .f32 => 4
  | .f64 => 5
  | .strT => 6
  | .boolT => 7
  | .optional => 8
  | .enumerate _ => 9
  | .variantBegin _ => 10
  | .variantEnd => 11
  | .variantNext _ => 12
  | .binaryData => 13
  | .trivialBegin _ => 14
  | .trivialEnd _ => 15
  | .objectBegin => 16
  | .objectEnd => 17
  | .objectNext _ => 18
  | .tupleBegin => 19
  | .tupleEnd => 20
  | .tupleNext => 21
  | .list => 22
  | .map => 23

/-- `variant_labels<Token>::value` from `src/schema/token.cpp`, lines
54-63, exactly as written there. -/
def tokenLabels : List String :=
  ["i32", "i64", "u32", "u64", "f32", "f64",
   "string", "boolean",
   "optional", "enumerate",
   "variant_begin", "variant_end", "variant_next",
   "binary_data", "trivial_begin", "trivial_end",
   "object_begin", "object_end", "object_next",
   "tuple_begin", "tuple_end", "tuple_next",
   "list"]

/-- `variant_to_label` (`include/datapack/labelled_variant.hpp`, line
43-45) reads `labels[value.index()]`; indexing the vector out of range
is undefined behaviour, rendered as `none`. -/
def tokenToLabel (t : Token) : Option String := tokenLabels[tokenIndex t]?

/-! ## The generic labelled-variant helpers
(include/datapack/labelled_variant.hpp)

A labelled variant is modelled by its label table; the
default-constructed alternative at position `i` is identified with the
index `i`.  `variant_from_label_iter<T, Next, Remainder...>` walks the
alternatives, comparing `variant_labels_v<T>()[index]` against the
requested label; the recursion depth is the number of alternatives,
which the registration makes equal to the table length. -/
def variantFromLabelIter (labels : List String) (label : String) : Nat → Nat → Option Nat
  | _, 0 => none
  | index, n + 1 =>
    if labels.getD index "" = label then some index
    else variantFromLabelIter labels label (index + 1) n

/-- `variant_from_label<Args...>(label)`. -/
def variantFromLabel (labels : List String) (label : String) : Option Nat :=
  variantFromLabelIter labels label 0 labels.length

/-- `variant_to_label(value)` = `variant_labels_v<T>()[value.index()]`. -/
def variantToLabelIdx (labels : List String) (i : Nat) : String := labels.getD i ""

/-! ## The string primitive packer (include/datapack/common/primitive.hpp) -/

/-- Modelled from the spec: the reader side of the packer holds an
error flag; when it cannot produce a string it sets the flag and
returns no value instead of raising (`datapack/reader.hpp` is not part
of the sources).  `avail` is the string the stream would yield next,
`none` when the stream cannot produce one. -/
structure MiniReader where
  avail : Option String
  error : Bool
deriving Repr, DecidableEq

/-- `packer.string()` of the reader. -/
def MiniReader.string (r : MiniReader) : MiniReader × Option String :=
  match r.avail with
  | some s => (r, some s)
  | none => ({ r with error := true }, none)

/-- `pack(std::string)` in MODE_READ (lines 37-48): assign the returned
view when there is one, otherwise `value.clear()`. -/
def packStringRead (r : MiniReader) (value : String) : MiniReader × String :=
  match r.string with
  | (r1, some s) => (r1, s)
  | (r1, none) =>
    let _ := value
    (r1, "")

/-! ## Object_::get_if (include/datapack/object.hpp, lines 158-162) -/

/-- The kind requested by the template parameter of `get_if<T>`. -/
inductive VKind where
  | intK
  | floatK
  | boolK
  | strK
  | nullK
  | binaryK
  | mapK
  | listK
deriving Repr, DecidableEq

/-- Which alternative a node value currently holds. -/
def kindOf : Value → VKind
  | .int _ => .intK
  | .float _ => .floatK
  | .bool _ => .boolK
  | .str _ => .strK
  | .null => .nullK
  | .binary _ => .binaryK
  | .map _ => .mapK
  | .list _ => .listK

/-- `std::get_if<T>(&node().value)`. -/
def getIfKind (k : VKind) (v : Value) : Option Value :=
  if kindOf v = k then some v else none

/-- An `Object_` handle: the shared arena pointer (null for a
default-constructed handle) and the node index; `isConst` mirrors the
`IsConst` template parameter, which only changes the returned pointer
type. The arena is reduced to its node value slots, the only part
`get_if` touches. -/
structure ObjectHandle where
  isConst : Bool
  state : Option (List Value)
  index : Int

/-- `Object_::get_if<T>()`: `if (!(*this)) return nullptr;` then the
variant access, where `operator bool` is `index != -1`. -/
def ObjectHandle.get_if (h : ObjectHandle) (k : VKind) : Option Value :=
  if h.index = -1 then none
  else
    match h.state with
    | none => none
    | some nodes => (nodes[h.index.toNat]?).bind (getIfKind k)

/-! ## Association-list lemmas for the merge/diff development -/

/-- Boolean equality is symmetric. -/
theorem beq_swap {α : Type} [BEq α] [LawfulBEq α] (a b : α) : (a == b) = (b == a) := by
  rw [Bool.eq_iff_iff]
  simp only [beq_iff_eq]
  exact eq_comm

/-- `lookupV` is `lookupO` with a NULL default. -/
theorem lookupV_eq (k : String) : ∀ es, lookupV k es = (lookupO k es).getD Value.null := by
  intro es
  induction es with
  | nil => rfl
  | cons e t ih =>
    obtain ⟨k2, v⟩ := e
    by_cases h : k2 = k <;> simp [lookupV, lookupO, h, ih]

/-- Lookup across an append takes the first hit. -/
theorem lookupO_append (k : String) : ∀ a b : List (String × Value),
    lookupO k (a ++ b) =
      match lookupO k a with
      | some v => some v
      | none => lookupO k b := by
  intro a b
  induction a with
  | nil => rfl
  | cons e t ih =>
    obtain ⟨k2, v⟩ := e
    by_cases h : k2 = k <;> simp [lookupO, h, ih]

/-- `hasKey` is definedness of the lookup. -/
theorem hasKey_eq_isSome (k : String) : ∀ es, hasKey k es = (lookupO k es).isSome := by
  intro es
  induction es with
  | nil => rfl
  | cons e t ih =>
    obtain ⟨k2, v⟩ := e
    by_cases h : k2 = k <;> simp [hasKey, lookupO, h, ih]

/-- A key that is not there looks up to nothing. -/
theorem lookupO_eq_none (k : String) (es : List (String × Value))
    (h : hasKey k es = false) : lookupO k es = none := by
  rw [hasKey_eq_isSome] at h
  exact Option.not_isSome_iff_eq_none.mp (by simp [h])

/-- A successful lookup is a member. -/
theorem mem_of_lookupO (k : String) : ∀ es v, lookupO k es = some v → (k, v) ∈ es := by
  intro es
  induction es with
  | nil => intro v h; simp [lookupO] at h
  | cons e t ih =>
    obtain ⟨k2, w⟩ := e
    intro v h
    by_cases hk : k2 = k
    · subst hk
      simp [lookupO] at h
      simp [h]
    · simp [lookupO, hk] at h
      exact List.mem_cons_of_mem _ (ih v h)

/-- With distinct keys, membership determines the lookup. -/
theorem lookupO_of_mem_nodup (k : String) (v : Value) : ∀ es,
    nodupKeys es = true → (k, v) ∈ es → lookupO k es = some v := by
  intro es
  induction es with
  | nil => intro _ h; simp at h
  | cons e t ih =>
    obtain ⟨k2, w⟩ := e
    intro hnd hmem
    simp [nodupKeys] at hnd
    rcases List.mem_cons.mp hmem with h | h
    · obtain ⟨h1, h2⟩ := Prod.mk.injEq .. ▸ h
      subst h1; subst h2
      simp [lookupO]
    · have hne : k2 ≠ k := by
        intro he
        subst he
        have : lookupO k2 t = some v := ih hnd.2 h
        have : hasKey k2 t = true := by
          rw [hasKey_eq_isSome, this]
          rfl
        simp [this] at hnd
      simp [lookupO, hne]
      exact ih hnd.2 h

/-- A member entry's value is smaller than the entry list. -/
theorem sizeOf_mem_entry (k : String) (v : Value) : ∀ es : List (String × Value),
    (k, v) ∈ es → sizeOf v < sizeOf es := by
  intro es
  induction es with
  | nil => intro h; simp at h
  | cons e t ih =>
    intro hmem
    rcases List.mem_cons.mp hmem with h | h
    · subst h; simp; omega
    · have := ih h
      obtain ⟨a, b⟩ := e
      simp
      omega

/-- A member element is smaller than the list. -/
theorem sizeOf_mem_value (v : Value) : ∀ vs : List Value, v ∈ vs → sizeOf v < sizeOf vs := by
  intro vs
  induction vs with
  | nil => intro h; simp at h
  | cons a t ih =>
    intro hmem
    rcases List.mem_cons.mp hmem with h | h
    · subst h; simp; omega
    · have := ih h
      simp
      omega

/-- Every value has positive size. -/
theorem sizeOf_value_pos (v : Value) : 0 < sizeOf v := by
  cases v <;> simp <;> omega

/-- Well-formed map entries have well-formed values. -/
theorem wfE_mem (k : String) (v : Value) : ∀ es,
    wfE es = true → (k, v) ∈ es → wfV v = true := by
  intro es
  induction es with
  | nil => intro _ h; simp at h
  | cons e t ih =>
    obtain ⟨k2, w⟩ := e
    intro hwf hmem
    simp [wfE] at hwf
    rcases List.mem_cons.mp hmem with h | h
    · obtain ⟨h1, h2⟩ := Prod.mk.injEq .. ▸ h
      subst h2
      exact hwf.1
    · exact ih hwf.2 h

/-- Well-formed list elements are well-formed. -/
theorem wfL_mem (v : Value) : ∀ vs, wfL vs = true → v ∈ vs → wfV v = true := by
  intro vs
  induction vs with
  | nil => intro _ h; simp at h
  | cons a t ih =>
    intro hwf hmem
    simp [wfL] at hwf
    rcases List.mem_cons.mp hmem with h | h
    · subst h; exact hwf.1
    · exact ih hwf.2 h

/-- All nullish entries: membership form. -/
theorem nullishE_mem (k : String) (v : Value) : ∀ es,
    nullishE es = true → (k, v) ∈ es → isNullish v = true := by
  intro es
  induction es with
  | nil => intro _ h; simp at h
  | cons e t ih =>
    obtain ⟨k2, w⟩ := e
    intro hn hmem
    simp [nullishE] at hn
    rcases List.mem_cons.mp hmem with h | h
    · obtain ⟨h1, h2⟩ := Prod.mk.injEq .. ▸ h
      subst h2
      exact hn.1
    · exact ih hn.2 h

/-- Keywise compatibility: membership form. -/
theorem compatE_mem (k : String) (bv mv : Value) : ∀ bs ms,
    compatE bs ms = true → (k, bv) ∈ bs → lookupO k ms = some mv →
      compat bv mv = true := by
  intro bs ms
  induction bs with
  | nil => intro _ h; simp at h
  | cons e t ih =>
    obtain ⟨k2, w⟩ := e
    intro hc hmem hlk
    simp only [compatE, Bool.and_eq_true] at hc
    rcases List.mem_cons.mp hmem with h | h
    · obtain ⟨h1, h2⟩ := Prod.mk.injEq .. ▸ h
      subst h1; subst h2
      have := hc.1
      rw [hlk] at this
      exact this
    · exact ih hc.2 h hlk

/-- Pointwise compatibility: indexed form. -/
theorem compatL_get (i : Nat) (b m : Value) : ∀ bs ms : List Value,
    compatL bs ms = true → bs[i]? = some b → ms[i]? = some m →
      compat b m = true := by
  induction i with
  | zero =>
    intro bs ms hc hb hm
    cases bs with
    | nil => simp at hb
    | cons b0 bt =>
      cases ms with
      | nil => simp at hm
      | cons m0 mt =>
        simp at hb hm
        simp [compatL] at hc
        rw [← hb, ← hm]
        exact hc.1
  | succ n ih =>
    intro bs ms hc hb hm
    cases bs with
    | nil => simp at hb
    | cons b0 bt =>
      cases ms with
      | nil => simp at hm
      | cons m0 mt =>
        simp at hb hm
        simp [compatL] at hc
        exact ih bt mt hc.2 hb hm

/-! ## Structural-equality lemmas -/

/-- `subE` is the conjunction of `entOK` over the entries. -/
theorem subE_eq_all : ∀ X BS, subE X BS = X.all (entOK BS) := by
  intro X BS
  induction X with
  | nil => simp [subE]
  | cons p t ih =>
    obtain ⟨k, v⟩ := p
    simp only [subE, ih, List.all_cons]
    congr 1
    simp only [entOK]
    split
    · rename_i w heq
      simp [heq]
    · rename_i heq
      simp [heq]

/-- Equality with NULL on the right is nullishness. -/
theorem veq_null_right (a : Value) : veq a Value.null = isNullish a := by
  cases a <;> simp [veq, isNullish]

/-- Equality with NULL on the left is nullishness. -/
theorem veq_null_left (b : Value) : veq Value.null b = isNullish b := by
  cases b <;> simp [veq]

/-- Pointwise reflexivity gives `veqL` reflexivity. -/
theorem veqL_refl_of : ∀ vs, (∀ x ∈ vs, veq x x = true) → veqL vs vs = true := by
  intro vs
  induction vs with
  | nil => intro _; simp [veqL]
  | cons a t ih =>
    intro h
    simp only [veqL, Bool.and_eq_true]
    exact ⟨h a (by simp), ih fun x hx => h x (List.mem_cons_of_mem _ hx)⟩

/-- `veq` is reflexive on well-formed trees (distinct keys are needed:
the two-sided lookup otherwise reaches a shadowed entry). -/
theorem veq_refl_aux : ∀ N v, sizeOf v ≤ N → wfV v = true → veq v v = true := by
  intro N
  induction N with
  | zero =>
    intro v h _
    have := sizeOf_value_pos v
    omega
  | succ N ih =>
    intro v hsz hwf
    cases v with
    | int a => simp [veq]
    | float a => simp [veq]
    | bool a => simp [veq]
    | str a => simp [veq]
    | binary a => simp [veq]
    | null => simp [veq, isNullish]
    | map es =>
      simp only [wfV, Bool.and_eq_true] at hwf
      have hsub : subE es es = true := by
        rw [subE_eq_all]
        apply List.all_eq_true.mpr
        intro p hp
        obtain ⟨k, w⟩ := p
        have hlk := lookupO_of_mem_nodup k w es hwf.1 hp
        have h1 := sizeOf_mem_entry k w es hp
        simp at hsz
        simp only [entOK, hlk]
        exact ih w (by omega) (wfE_mem k w es hwf.2 hp)
      simp [veq, hsub]
    | list vs =>
      simp only [veq]
      apply veqL_refl_of
      intro x hx
      have h1 := sizeOf_mem_value x vs hx
      simp at hsz
      exact ih x (by omega) (wfL_mem x vs (by simpa [wfV] using hwf) hx)

/-- `veq` reflexivity, packaged. -/
theorem veq_refl (v : Value) (h : wfV v = true) : veq v v = true :=
  veq_refl_aux (sizeOf v) v le_rfl h

/-- Pointwise symmetry gives `veqL` symmetry. -/
theorem veqL_symm_of : ∀ as bs : List Value,
    (∀ x ∈ as, ∀ y ∈ bs, veq x y = veq y x) → veqL as bs = veqL bs as := by
  intro as
  induction as with
  | nil =>
    intro bs _
    induction bs with
    | nil => rfl
    | cons b t ihb =>
      simp only [veqL]
      rw [ihb (by intro x hx y hy; simp at hx)]
  | cons a t ih =>
    intro bs h
    cases bs with
    | nil =>
      simp only [veqL, ih [] (by intro x hx y hy; simp at hy)]
    | cons b u =>
      simp only [veqL]
      rw [h a (by simp) b (by simp),
        ih u (fun x hx y hy => h x (by simp [hx]) y (by simp [hy]))]

/-- `veq` is symmetric. -/
theorem veq_symm_aux : ∀ N a b, sizeOf a + sizeOf b ≤ N → veq a b = veq b a := by
  intro N
  induction N with
  | zero =>
    intro a b h
    have := sizeOf_value_pos a
    have := sizeOf_value_pos b
    omega
  | succ N ih =>
    intro a b hsz
    cases a <;> cases b <;> try simp [veq, Bool.and_comm]
    case int.int x y => exact eq_comm
    case float.float x y => exact eq_comm
    case bool.bool x y => exact eq_comm
    case str.str x y => exact eq_comm
    case binary.binary x y => exact eq_comm
    case list.list as bs =>
      apply veqL_symm_of
      intro x hx y hy
      have h1 := sizeOf_mem_value x as hx
      have h2 := sizeOf_mem_value y bs hy
      simp at hsz
      exact ih x y (by omega)

/-- `veq` symmetry, packaged. -/
theorem veq_symm (a b : Value) : veq a b = veq b a :=
  veq_symm_aux (sizeOf a + sizeOf b) a b le_rfl

/-- Any two NULL-equivalent trees are equal. -/
theorem nullish_veq_aux : ∀ N a b, sizeOf a + sizeOf b ≤ N →
    isNullish a = true → isNullish b = true → veq a b = true := by
  intro N
  induction N with
  | zero =>
    intro a b h _ _
    have := sizeOf_value_pos a
    have := sizeOf_value_pos b
    omega
  | succ N ih =>
    intro a b hsz ha hb
    have key : ∀ X Y : List (String × Value), nullishE X = true → nullishE Y = true →
        sizeOf X + sizeOf Y + 1 ≤ N + 1 → subE X Y = true := by
      intro X Y hX hY hs
      rw [subE_eq_all]
      apply List.all_eq_true.mpr
      intro p hp
      obtain ⟨k, v⟩ := p
      have hv := nullishE_mem k v X hX hp
      cases hw : lookupO k Y with
      | none => simp [entOK, hw, hv]
      | some w =>
        have hwm := mem_of_lookupO k Y w hw
        have hwn := nullishE_mem k w Y hY hwm
        have h1 := sizeOf_mem_entry k v X hp
        have h2 := sizeOf_mem_entry k w Y hwm
        simp only [entOK, hw]
        exact ih v w (by omega) hv hwn
    cases a with
    | null => rw [veq_null_left]; exact hb
    | map as =>
      cases b with
      | null => rw [veq_null_right]; exact ha
      | map bs =>
        simp only [isNullish] at ha hb
        simp at hsz
        simp only [veq, Bool.and_eq_true]
        exact ⟨key as bs ha hb (by omega), key bs as hb ha (by omega)⟩
      | int x => simp [isNullish] at hb
      | float x => simp [isNullish] at hb
      | bool x => simp [isNullish] at hb
      | str x => simp [isNullish] at hb
      | binary x => simp [isNullish] at hb
      | list x => simp [isNullish] at hb
    | int x => simp [isNullish] at ha
    | float x => simp [isNullish] at ha
    | bool x => simp [isNullish] at ha
    | str x => simp [isNullish] at ha
    | binary x => simp [isNullish] at ha
    | list x => simp [isNullish] at ha

/-- NULL-equivalence implies equality, packaged. -/
theorem nullish_veq (a b : Value) (ha : isNullish a = true) (hb : isNullish b = true) :
    veq a b = true :=
  nullish_veq_aux (sizeOf a + sizeOf b) a b le_rfl ha hb

/-! ## Merge/diff unfolding and characterization lemmas -/

/-- Merging any base with a NULL diff erases it to NULL. -/
theorem mergeV_to_null (b : Value) : mergeV b Value.null = Value.null := by
  cases b <;> simp [mergeV]

/-- Merging a NULL base installs the diff value. -/
theorem mergeV_from_null (d : Value) : mergeV Value.null d = d := by
  cases d <;> simp [mergeV]

/-- A diff against a NULL-like base of a different shape is the
modified value itself; merging installs it. -/
theorem mergeMapsGo_cons (k : String) (bv : Value) (t ds : List (String × Value)) :
    mergeMapsGo ((k, bv) :: t) ds =
      (k, match lookupO k ds with
          | some dv => mergeV bv dv
          | none => bv) :: mergeMapsGo t ds := by
  simp only [mergeMapsGo]
  congr 2
  split
  · rename_i dv heq
    simp [heq]
  · rename_i heq
    simp [heq]

/-- Unfolding of `diffMapsGo` with the lookup hypothesis erased. -/
theorem diffMapsGo_cons (k : String) (bv : Value) (t ms : List (String × Value)) :
    diffMapsGo ((k, bv) :: t) ms =
      if isNullish bv then diffMapsGo t ms
      else
        match lookupO k ms with
        | none => (k, Value.null) :: diffMapsGo t ms
        | some mv =>
          if isNullish mv then (k, Value.null) :: diffMapsGo t ms
          else if veq bv mv then diffMapsGo t ms
          else (k, diffV bv mv) :: diffMapsGo t ms := by
  cases hn : isNullish bv with
  | true => simp [diffMapsGo, hn]
  | false =>
    simp only [diffMapsGo, hn, Bool.false_eq_true, if_false]
    split
    · rename_i heq
      simp [heq]
    · rename_i mv heq
      simp [heq]

/-- Unfolding of `mergeListGo` with the lookup hypothesis erased. -/
theorem mergeListGo_cons (bs : List Value) (ds : List (String × Value)) (i n : Nat) :
    mergeListGo bs ds i (n + 1) =
      (match lookupO (natKey i) ds with
       | some dv => mergeV ((bs[i]?).getD Value.null) dv
       | none => (bs[i]?).getD Value.null) :: mergeListGo bs ds (i + 1) n := by
  simp only [mergeListGo]
  congr 1
  split
  · rename_i dv heq
    simp [heq]
  · rename_i heq
    simp [heq]

/-- Unfolding of `diffListsGo` in terms of the per-index entry. -/
theorem diffListsGo_succ (bs ms : List Value) (i n : Nat) :
    diffListsGo bs ms i (n + 1) =
      match dEnt bs ms i with
      | some v => (natKey i, v) :: diffListsGo bs ms (i + 1) n
      | none => diffListsGo bs ms (i + 1) n := by
  simp only [diffListsGo]
  split
  · rename_i bv mv h1 h2
    simp only [dEnt, h1, h2]
    cases hv : veq bv mv <;> simp [hv]
  · rename_i bv h1 h2
    simp [dEnt, h1, h2]
  · rename_i mv h1 h2
    simp [dEnt, h1, h2]
  · rename_i h1 h2
    simp [dEnt, h1, h2]

/-- Lookup in the keywise-merged entries. -/
theorem lookupO_mergeMapsGo (k : String) : ∀ bs ds : List (String × Value),
    lookupO k (mergeMapsGo bs ds) =
      match lookupO k bs with
      | some bv => some (match lookupO k ds with
                         | some dv => mergeV bv dv
                         | none => bv)
      | none => none := by
  intro bs ds
  induction bs with
  | nil => simp [mergeMapsGo, lookupO]
  | cons e t ih =>
    obtain ⟨k2, bv⟩ := e
    rw [mergeMapsGo_cons]
    by_cases hk : k2 = k
    · subst hk
      simp [lookupO]
    · simp [lookupO, hk, ih]

/-- Members of the keywise-merged entries come from the base. -/
theorem mem_mergeMapsGo (p : String × Value) : ∀ bs ds : List (String × Value),
    p ∈ mergeMapsGo bs ds →
      ∃ bv, (p.1, bv) ∈ bs ∧
        p.2 = (match lookupO p.1 ds with
               | some dv => mergeV bv dv
               | none => bv) := by
  intro bs ds
  induction bs with
  | nil => intro h; simp [mergeMapsGo] at h
  | cons e t ih =>
    obtain ⟨k2, bv⟩ := e
    rw [mergeMapsGo_cons]
    intro h
    rcases List.mem_cons.mp h with h | h
    · subst h
      exact ⟨bv, by simp⟩
    · obtain ⟨bv', hmem, hval⟩ := ih h
      exact ⟨bv', List.mem_cons_of_mem _ hmem, hval⟩

/-- Lookup in the appended new-key entries of a merge. -/
theorem lookupO_newEntries (k : String) (bs : List (String × Value)) :
    ∀ ds, lookupO k (newEntries bs ds) =
      if hasKey k bs then none else lookupO k ds := by
  intro ds
  induction ds with
  | nil => simp [newEntries, lookupO]
  | cons e t ih =>
    obtain ⟨k2, dv⟩ := e
    by_cases hk : k2 = k
    · subst hk
      cases hh : hasKey k2 bs with
      | true => simp [newEntries, hh, ih]
      | false => simp [newEntries, hh, lookupO]
    · cases hh : hasKey k2 bs with
      | true => simp [newEntries, hh, ih, lookupO, hk]
      | false => simp [newEntries, hh, ih, lookupO, hk]

/-- Members of the appended new-key entries of a merge. -/
theorem mem_newEntries (p : String × Value) (bs : List (String × Value)) :
    ∀ ds, p ∈ newEntries bs ds → p ∈ ds ∧ hasKey p.1 bs = false := by
  intro ds
  induction ds with
  | nil => intro h; simp [newEntries] at h
  | cons e t ih =>
    obtain ⟨k2, dv⟩ := e
    intro h
    cases hh : hasKey k2 bs with
    | true =>
      simp only [newEntries, hh, if_true] at h
      obtain ⟨h1, h2⟩ := ih h
      exact ⟨List.mem_cons_of_mem _ h1, h2⟩
    | false =>
      simp only [newEntries, hh, Bool.false_eq_true, if_false] at h
      rcases List.mem_cons.mp h with h | h
      · subst h
        exact ⟨by simp, hh⟩
      · obtain ⟨h1, h2⟩ := ih h
        exact ⟨List.mem_cons_of_mem _ h1, h2⟩

/-- The keys of the base-driven diff entries come from the base. -/
theorem hasKey_diffMapsGo (k : String) : ∀ bs ms : List (String × Value),
    hasKey k (diffMapsGo bs ms) = true → hasKey k bs = true := by
  intro bs ms
  induction bs with
  | nil => intro h; simp [diffMapsGo, hasKey] at h
  | cons e t ih =>
    obtain ⟨k2, bv⟩ := e
    intro h
    rw [diffMapsGo_cons] at h
    by_cases hk : k2 = k
    · simp [hasKey, hk]
    · have ht : hasKey k (diffMapsGo t ms) = true := by
        split at h
        · exact h
        · split at h
          · simpa [hasKey, hk] using h
          · split at h
            · simpa [hasKey, hk] using h
            · split at h
              · exact h
              · simpa [hasKey, hk] using h
      simp [hasKey, hk]
      exact ih ht

/-- Lookup in the base-driven diff entries, for distinct base keys. -/
theorem lookupO_diffMapsGo (k : String) : ∀ bs ms : List (String × Value),
    nodupKeys bs = true →
    lookupO k (diffMapsGo bs ms) =
      match lookupO k bs with
      | none => none
      | some bv =>
        if isNullish bv then none
        else
          match lookupO k ms with
          | none => some Value.null
          | some mv =>
            if isNullish mv then some Value.null
            else if veq bv mv then none
            else some (diffV bv mv) := by
  intro bs ms
  induction bs with
  | nil => intro _; simp [diffMapsGo, lookupO]
  | cons e t ih =>
    obtain ⟨k2, bv2⟩ := e
    intro hnd
    have hnd' : (!hasKey k2 t && nodupKeys t) = true := by simpa [nodupKeys] using hnd
    simp only [Bool.and_eq_true, Bool.not_eq_true'] at hnd'
    obtain ⟨hmiss, hndt⟩ := hnd'
    rw [diffMapsGo_cons]
    by_cases hk : k2 = k
    · subst hk
      have hnone : lookupO k2 (diffMapsGo t ms) = none := by
        apply lookupO_eq_none
        cases hcontra : hasKey k2 (diffMapsGo t ms)
        · rfl
        · rw [hasKey_diffMapsGo k2 t ms hcontra] at hmiss
          simp at hmiss
      split
      · rename_i hnb
        simp [lookupO, hnb, hnone]
      · rename_i hnb
        split
        · rename_i hms
          simp [lookupO, hms, hnb]
        · rename_i mv hms
          split
          · rename_i hnm
            simp [lookupO, hms, hnm, hnb]
          · rename_i hnm
            split
            · rename_i hveq
              simp [lookupO, hms, hveq, hnb, hnm, hnone]
            · rename_i hveq
              simp [lookupO, hms, hveq, hnb, hnm, hnone]
    · split
      · simp [lookupO, hk, ih hndt]
      · split
        · simp [lookupO, hk, ih hndt]
        · split
          · simp [lookupO, hk, ih hndt]
          · split
            · simp [lookupO, hk, ih hndt]
            · simp [lookupO, hk, ih hndt]

/-- The keys of the new-key diff entries come from the modified map. -/
theorem hasKey_diffNewKeys (k : String) (bs : List (String × Value)) :
    ∀ ms, hasKey k (diffNewKeys bs ms) = true → hasKey k ms = true := by
  intro ms
  induction ms with
  | nil => intro h; simp [diffNewKeys, hasKey] at h
  | cons e u ih =>
    obtain ⟨k2, mv2⟩ := e
    intro h
    simp only [diffNewKeys] at h
    by_cases hk : k2 = k
    · simp [hasKey, hk]
    · simp only [hasKey]
      split at h
      · simp only [hasKey, hk] at h
        simp at h
        simp [ih h]
      · simp [ih h]

/-- Members of the new-key diff entries. -/
theorem mem_diffNewKeys (p : String × Value) (bs : List (String × Value)) :
    ∀ ms, p ∈ diffNewKeys bs ms →
      p ∈ ms ∧ isNullish p.2 = false ∧ isNullish (lookupV p.1 bs) = true := by
  intro ms
  induction ms with
  | nil => intro h; simp [diffNewKeys] at h
  | cons e u ih =>
    obtain ⟨k2, mv2⟩ := e
    intro h
    simp only [diffNewKeys] at h
    split at h
    · rename_i hcond
      simp only [Bool.and_eq_true, Bool.not_eq_true'] at hcond
      rcases List.mem_cons.mp h with h | h
      · subst h
        exact ⟨by simp, hcond.1, hcond.2⟩
      · obtain ⟨h1, h2, h3⟩ := ih h
        exact ⟨List.mem_cons_of_mem _ h1, h2, h3⟩
    · obtain ⟨h1, h2, h3⟩ := ih h
      exact ⟨List.mem_cons_of_mem _ h1, h2, h3⟩

/-- Lookup in the new-key diff entries, for distinct modified keys. -/
theorem lookupO_diffNewKeys (k : String) (bs : List (String × Value)) :
    ∀ ms, nodupKeys ms = true →
      lookupO k (diffNewKeys bs ms) =
        match lookupO k ms with
        | some mv =>
          if !isNullish mv && isNullish (lookupV k bs) then some mv else none
        | none => none := by
  intro ms
  induction ms with
  | nil => intro _; simp [diffNewKeys, lookupO]
  | cons e u ih =>
    obtain ⟨k2, mv2⟩ := e
    intro hnd
    have hnd' : (!hasKey k2 u && nodupKeys u) = true := by simpa [nodupKeys] using hnd
    simp only [Bool.and_eq_true, Bool.not_eq_true'] at hnd'
    obtain ⟨hmiss, hndu⟩ := hnd'
    simp only [diffNewKeys]
    by_cases hk : k2 = k
    · subst hk
      have hnone : lookupO k2 (diffNewKeys bs u) = none := by
        apply lookupO_eq_none
        cases hcontra : hasKey k2 (diffNewKeys bs u)
        · rfl
        · rw [hasKey_diffNewKeys k2 bs u hcontra] at hmiss
          simp at hmiss
      split
      · rename_i hcond
        simp only [Bool.and_eq_true, Bool.not_eq_true'] at hcond
        simp [lookupO, hcond.1, hcond.2]
      · rename_i hcond
        simp [lookupO, hnone, hcond]
    · split
      · simp [lookupO, hk, ih hndu]
      · simp [lookupO, hk, ih hndu]

/-! ## Decimal keys are injective -/

/-- The fueled digit extractor agrees with `Nat.digits` base 10. -/
theorem natDigitsGo_eq : ∀ fuel n, n ≤ fuel → natDigitsGo fuel n = Nat.digits 10 n := by
  intro fuel
  induction fuel with
  | zero =>
    intro n h
    have h0 : n = 0 := by omega
    subst h0
    simp [natDigitsGo]
  | succ f ih =>
    intro n h
    by_cases h0 : n = 0
    · subst h0
      simp [natDigitsGo]
    · have hdiv : n / 10 < n := Nat.div_lt_self (Nat.pos_of_ne_zero h0) (by norm_num)
      simp only [natDigitsGo, h0, if_false]
      rw [ih (n / 10) (by omega),
        ← Nat.digits_def' (by norm_num : (1:ℕ) < 10) (Nat.pos_of_ne_zero h0)]

/-- The digit list of `n`. -/
theorem natDigits_eq (n : Nat) : natDigits n = Nat.digits 10 n :=
  natDigitsGo_eq n n le_rfl

/-- Digit characters are distinct for distinct digits. -/
theorem digitChar_inj : ∀ a, a < 10 → ∀ b, b < 10 → digitChar a = digitChar b → a = b := by
  decide

/-- Mapping `digitChar` over digit lists is injective. -/
theorem map_digitChar_inj : ∀ l1 l2 : List Nat,
    (∀ d ∈ l1, d < 10) → (∀ d ∈ l2, d < 10) →
    l1.map digitChar = l2.map digitChar → l1 = l2 := by
  intro l1
  induction l1 with
  | nil =>
    intro l2 _ _ h
    cases l2 with
    | nil => rfl
    | cons b u => simp at h
  | cons a t ih =>
    intro l2 h1 h2 h
    cases l2 with
    | nil => simp at h
    | cons b u =>
      simp only [List.map_cons, List.cons.injEq] at h
      obtain ⟨hab, htu⟩ := h
      have hd := digitChar_inj a (h1 a (by simp)) b (h2 b (by simp)) hab
      subst hd
      rw [ih u (fun d hd => h1 d (by simp [hd])) (fun d hd => h2 d (by simp [hd])) htu]

/-- Every digit of `natDigits` is below 10. -/
theorem natDigits_lt (n : Nat) : ∀ d ∈ natDigits n, d < 10 := by
  intro d hd
  rw [natDigits_eq] at hd
  exact Nat.digits_lt_base (by norm_num) hd

/-- The decimal key function is injective. -/
theorem natKey_inj : ∀ a b, natKey a = natKey b → a = b := by
  have keyzero : ∀ m, m ≠ 0 →
      String.mk (((natDigits m).map digitChar).reverse) = "0" → False := by
    intro m hm h
    have hdata : ((natDigits m).map digitChar).reverse = ['0'] := by
      have := congrArg String.data h
      simpa using this
    have hrev : (natDigits m).map digitChar = ['0'] := by
      have := congrArg List.reverse hdata
      simpa using this
    have hdig : natDigits m = [0] := by
      cases hnd : natDigits m with
      | nil => rw [hnd] at hrev; simp at hrev
      | cons d u =>
        rw [hnd] at hrev
        cases u with
        | nil =>
          simp only [List.map_cons, List.map_nil, List.cons.injEq] at hrev
          have hd0 : d = 0 := by
            have hd10 : d < 10 := natDigits_lt m d (by rw [hnd]; simp)
            refine digitChar_inj d hd10 0 (by norm_num) ?_
            rw [hrev.1]
            rfl
          simp [hd0]
        | cons d2 u2 => simp at hrev
    have hm0 : m = 0 := by
      have hof := Nat.ofDigits_digits 10 m
      rw [← natDigits_eq, hdig] at hof
      simpa [Nat.ofDigits] using hof.symm
    exact hm hm0
  intro a b h
  by_cases ha : a = 0 <;> by_cases hb : b = 0
  · omega
  · subst ha
    simp [natKey, hb] at h
    exact (keyzero b hb h.symm).elim
  · subst hb
    simp [natKey, ha] at h
    exact (keyzero a ha h).elim
  · simp [natKey, ha, hb] at h
    have hdata : ((natDigits a).map digitChar).reverse
        = ((natDigits b).map digitChar).reverse := by
      have := congrArg String.data h
      simpa using this
    have hmap : (natDigits a).map digitChar = (natDigits b).map digitChar := by
      have := congrArg List.reverse hdata
      simpa using this
    have hdig := map_digitChar_inj (natDigits a) (natDigits b)
      (natDigits_lt a) (natDigits_lt b) hmap
    have h1 := Nat.ofDigits_digits 10 a
    have h2 := Nat.ofDigits_digits 10 b
    rw [← natDigits_eq] at h1 h2
    rw [← h1, ← h2, hdig]

/-- Lookup of a decimal key in the list-diff entries: inside the
window it is the per-index entry, outside it is nothing. -/
theorem lookupO_diffListsGo (bs ms : List Value) : ∀ n j i,
    lookupO (natKey i) (diffListsGo bs ms j n) =
      if j ≤ i ∧ i < j + n then dEnt bs ms i else none := by
  intro n
  induction n with
  | zero =>
    intro j i
    rw [if_neg (by omega)]
    simp [diffListsGo, lookupO]
  | succ n ih =>
    intro j i
    rw [diffListsGo_succ]
    cases hd : dEnt bs ms j with
    | none =>
      rw [ih (j + 1) i]
      by_cases hij : i = j
      · subst hij
        rw [if_neg (by omega), if_pos (by omega), hd]
      · by_cases h2 : j + 1 ≤ i ∧ i < j + 1 + n
        · rw [if_pos h2, if_pos (by omega)]
        · rw [if_neg h2, if_neg (by omega)]
    | some v =>
      simp only [lookupO]
      by_cases hij : i = j
      · subst hij
        rw [if_pos rfl, if_pos (by omega), hd]
      · have hne : natKey j ≠ natKey i := fun he => hij (natKey_inj j i he).symm
        rw [if_neg hne, ih (j + 1) i]
        by_cases h2 : j + 1 ≤ i ∧ i < j + 1 + n
        · rw [if_pos h2, if_pos (by omega)]
        · rw [if_neg h2, if_neg (by omega)]

/-- The list diff has enough entries to reach every modified index:
`ms.length ≤ |diff| + max |bs| j` over a window covering `ms`. -/
theorem diffListsGo_length (bs ms : List Value) : ∀ n j,
    ms.length ≤ j + n →
    ms.length ≤ (diffListsGo bs ms j n).length + max bs.length j := by
  intro n
  induction n with
  | zero =>
    intro j h
    have := Nat.le_max_right bs.length j
    omega
  | succ n ih =>
    intro j h
    cases hd : dEnt bs ms j with
    | some v =>
      simp only [diffListsGo_succ, hd, List.length_cons]
      have hrec := ih (j + 1) (by omega)
      have hmax1 : max bs.length (j + 1) ≤ max bs.length j + 1 := by omega
      omega
    | none =>
      simp only [diffListsGo_succ, hd]
      cases hb : bs[j]? with
      | some bv =>
        cases hm : ms[j]? with
        | some mv =>
          have hjb : j < bs.length := by
            by_contra hc
            rw [List.getElem?_eq_none (by omega)] at hb
            exact Option.noConfusion hb
          have hrec := ih (j + 1) (by omega)
          have hmax : max bs.length (j + 1) ≤ max bs.length j := by omega
          omega
        | none =>
          have hjm : ms.length ≤ j := by
            by_contra hc
            rw [List.getElem?_eq_getElem (by omega)] at hm
            exact Option.noConfusion hm
          have := Nat.le_max_right bs.length j
          omega
      | none =>
        cases hm : ms[j]? with
        | some mv => simp [dEnt, hb, hm] at hd
        | none =>
          have hjm : ms.length ≤ j := by
            by_contra hc
            rw [List.getElem?_eq_getElem (by omega)] at hm
            exact Option.noConfusion hm
          have := Nat.le_max_right bs.length j
          omega

/-- Lookup in the full keywise merge of two maps. -/
theorem lookupO_mergedMap (k : String) (bs ds : List (String × Value)) :
    lookupO k (mergeMapsGo bs ds ++ newEntries bs ds) =
      match lookupO k bs with
      | some bv => some (match lookupO k ds with
                         | some dv => mergeV bv dv
                         | none => bv)
      | none => lookupO k ds := by
  rw [lookupO_append, lookupO_mergeMapsGo, lookupO_newEntries]
  cases hlkb : lookupO k bs with
  | some bv => simp
  | none =>
    have hhk : hasKey k bs = false := by rw [hasKey_eq_isSome, hlkb]; rfl
    simp [hhk]

/-- Merging any diff onto a NULL-equivalent base produces the diff
value itself (up to structural equality): the base contributes only
NULL-equivalent leftovers. -/
theorem mergeNullish_aux : ∀ N b v, sizeOf b + sizeOf v ≤ N →
    isNullish b = true → wfV v = true → veq (mergeV b v) v = true := by
  intro N
  induction N with
  | zero =>
    intro b v h _ _
    have := sizeOf_value_pos b
    have := sizeOf_value_pos v
    omega
  | succ N ih =>
    intro b v hsz hb hwf
    cases b with
    | null => rw [mergeV_from_null]; exact veq_refl v hwf
    | int a => simp [isNullish] at hb
    | float a => simp [isNullish] at hb
    | bool a => simp [isNullish] at hb
    | str a => simp [isNullish] at hb
    | binary a => simp [isNullish] at hb
    | list a => simp [isNullish] at hb
    | map bs =>
      have hnb : nullishE bs = true := by simpa [isNullish] using hb
      cases v with
      | null => rw [mergeV_to_null]; simp [veq, isNullish]
      | int a => simp [mergeV]; exact veq_refl _ hwf
      | float a => simp [mergeV]; exact veq_refl _ hwf
      | bool a => simp [mergeV]; exact veq_refl _ hwf
      | str a => simp [mergeV]; exact veq_refl _ hwf
      | binary a => simp [mergeV]; exact veq_refl _ hwf
      | list a => simp [mergeV]; exact veq_refl _ hwf
      | map ds =>
        have hnd : nodupKeys ds = true ∧ wfE ds = true := by
          simpa [wfV] using hwf
        simp only [mergeV, veq, Bool.and_eq_true]
        simp at hsz
        constructor
        · rw [subE_eq_all]
          apply List.all_eq_true.mpr
          intro p hp
          rcases List.mem_append.mp hp with hp | hp
          · obtain ⟨k, w⟩ := p
            obtain ⟨bv, hmem, hval⟩ := mem_mergeMapsGo (k, w) bs ds hp
            simp only at hval
            have hbv : isNullish bv = true := nullishE_mem k bv bs hnb hmem
            cases hlk : lookupO k ds with
            | some dv =>
              simp only [hlk] at hval
              simp only [entOK, hlk]
              subst hval
              have h1 := sizeOf_mem_entry k bv bs hmem
              have h2 := sizeOf_lookupO_lt k ds dv hlk
              exact ih bv dv (by omega) hbv
                (wfE_mem k dv ds hnd.2 (mem_of_lookupO k ds dv hlk))
            | none =>
              simp only [hlk] at hval
              subst hval
              simp only [entOK, hlk]
              exact hbv
          · obtain ⟨k, dv⟩ := p
            obtain ⟨hmem, hnew⟩ := mem_newEntries (k, dv) bs ds hp
            simp only [entOK, lookupO_of_mem_nodup k dv ds hnd.1 hmem]
            exact veq_refl dv (wfE_mem k dv ds hnd.2 hmem)
        · rw [subE_eq_all]
          apply List.all_eq_true.mpr
          intro p hp
          obtain ⟨k, dv⟩ := p
          have hlkd : lookupO k ds = some dv := lookupO_of_mem_nodup k dv ds hnd.1 hp
          have hwfd : wfV dv = true := wfE_mem k dv ds hnd.2 hp
          simp only [entOK, lookupO_mergedMap]
          cases hlkb : lookupO k bs with
          | some bv =>
            simp only [hlkd]
            have hbv := nullishE_mem k bv bs hnb (mem_of_lookupO k bs bv hlkb)
            have h1 := sizeOf_mem_entry k bv bs (mem_of_lookupO k bs bv hlkb)
            have h2 := sizeOf_lookupO_lt k ds dv hlkd
            rw [veq_symm]
            exact ih bv dv (by omega) hbv hwfd
          | none =>
            simp only [hlkd]
            exact veq_refl dv hwfd

/-- `mergeNullish_aux`, packaged. -/
theorem mergeNullish (b v : Value) (hb : isNullish b = true) (hwf : wfV v = true) :
    veq (mergeV b v) v = true :=
  mergeNullish_aux (sizeOf b + sizeOf v) b v le_rfl hb hwf

/-- `entOK` is equality against the lookup with NULL default. -/
theorem entOK_eq_veq (BS : List (String × Value)) (p : String × Value) :
    entOK BS p = veq p.2 ((lookupO p.1 BS).getD Value.null) := by
  simp only [entOK]
  cases lookupO p.1 BS with
  | none => simp [veq_null_right]
  | some w => simp

/-- Members have their key. -/
theorem hasKey_of_mem (k : String) (v : Value) : ∀ es : List (String × Value),
    (k, v) ∈ es → hasKey k es = true := by
  intro es
  induction es with
  | nil => intro h; simp at h
  | cons e t ih =>
    obtain ⟨k2, w⟩ := e
    intro h
    rcases List.mem_cons.mp h with h | h
    · obtain ⟨h1, h2⟩ := Prod.mk.injEq .. ▸ h
      simp [hasKey, h1]
    · simp [hasKey, ih h]

/-- Indexed form of `wfL`. -/
theorem wfL_get (i : Nat) (v : Value) : ∀ vs, wfL vs = true → vs[i]? = some v →
    wfV v = true := by
  induction i with
  | zero =>
    intro vs hw hg
    cases vs with
    | nil => simp at hg
    | cons a t =>
      simp at hg
      simp [wfL] at hw
      rw [← hg]
      exact hw.1
  | succ n ih =>
    intro vs hw hg
    cases vs with
    | nil => simp at hg
    | cons a t =>
      simp at hg
      simp [wfL] at hw
      exact ih t hw.2 hg

/-- Per-key behaviour of merge-after-diff for two maps: for a key of
the base, the merged entry equals the modified lookup. -/
theorem mergeDiff_core (bs ms : List (String × Value))
    (IH : ∀ b' m', sizeOf b' < sizeOf bs → sizeOf m' < sizeOf ms →
      wfV b' = true → wfV m' = true → compat b' m' = true →
      veq (mergeV b' (diffV b' m')) m' = true)
    (hndb : nodupKeys bs = true) (hweb : wfE bs = true)
    (hndm : nodupKeys ms = true) (hwem : wfE ms = true)
    (hce : compatE bs ms = true)
    (k : String) (bv : Value) (hlkb : lookupO k bs = some bv) :
    veq (match lookupO k (diffMapsGo bs ms ++ diffNewKeys bs ms) with
         | some dv => mergeV bv dv
         | none => bv)
      ((lookupO k ms).getD Value.null) = true := by
  have hmemb := mem_of_lookupO k bs bv hlkb
  have hwbv : wfV bv = true := wfE_mem k bv bs hweb hmemb
  have hlkV : lookupV k bs = bv := by rw [lookupV_eq, hlkb]; rfl
  rw [lookupO_append, lookupO_diffMapsGo k bs ms hndb,
    lookupO_diffNewKeys k bs ms hndm, hlkb]
  cases hnb : isNullish bv with
  | true =>
    simp only [if_true]
    cases hlkm : lookupO k ms with
    | none => simp [veq_null_right, hnb]
    | some mv =>
      have hwmv : wfV mv = true := wfE_mem k mv ms hwem (mem_of_lookupO k ms mv hlkm)
      cases hnm : isNullish mv with
      | true => simp [hlkV, hnb, hnm, nullish_veq bv mv hnb hnm]
      | false =>
        simp only [hlkV, hnb, hnm, Bool.not_false, Bool.and_true, if_true,
          Option.getD_some]
        exact mergeNullish bv mv hnb hwmv
  | false =>
    cases hlkm : lookupO k ms with
    | none =>
      simp [hnb, mergeV_to_null, veq, isNullish]
    | some mv =>
      have hmemm := mem_of_lookupO k ms mv hlkm
      have hwmv : wfV mv = true := wfE_mem k mv ms hwem hmemm
      cases hnm : isNullish mv with
      | true =>
        simp [hnb, hnm, mergeV_to_null, veq_null_left]
      | false =>
        cases hveq : veq bv mv with
        | true =>
          simp only [hnb, hnm, Bool.false_eq_true, if_false, hveq, if_true, hlkV,
            Bool.and_false, Option.getD_some]
        | false =>
          have h1 := sizeOf_mem_entry k bv bs hmemb
          have h2 := sizeOf_mem_entry k mv ms hmemm
          have hcmp : compat bv mv = true := compatE_mem k bv mv bs ms hce hmemb hlkm
          simp only [hnb, hnm, Bool.false_eq_true, if_false, hveq, Option.getD_some]
          exact IH bv mv (by omega) (by omega) hwbv hwmv hcmp

/-- Merge-after-diff for two well-formed, compatible maps. -/
theorem mergeDiff_map_case (bs ms : List (String × Value))
    (IH : ∀ b' m', sizeOf b' < sizeOf bs → sizeOf m' < sizeOf ms →
      wfV b' = true → wfV m' = true → compat b' m' = true →
      veq (mergeV b' (diffV b' m')) m' = true)
    (hndb : nodupKeys bs = true) (hweb : wfE bs = true)
    (hndm : nodupKeys ms = true) (hwem : wfE ms = true)
    (hce : compatE bs ms = true) :
    veq (mergeV (Value.map bs) (diffV (Value.map bs) (Value.map ms)))
      (Value.map ms) = true := by
  simp only [diffV, mergeV, veq, Bool.and_eq_true]
  set ds := diffMapsGo bs ms ++ diffNewKeys bs ms with hds
  constructor
  · rw [subE_eq_all]
    apply List.all_eq_true.mpr
    intro p hp
    rw [entOK_eq_veq]
    rcases List.mem_append.mp hp with hp | hp
    · obtain ⟨k, w⟩ := p
      obtain ⟨bv, hmem, hval⟩ := mem_mergeMapsGo (k, w) bs ds hp
      simp only at hval
      have hlkb := lookupO_of_mem_nodup k bv bs hndb hmem
      subst hval
      exact mergeDiff_core bs ms IH hndb hweb hndm hwem hce k bv hlkb
    · obtain ⟨k, dv⟩ := p
      obtain ⟨hmem, hnew⟩ := mem_newEntries (k, dv) bs ds hp
      rcases List.mem_append.mp hmem with hmem | hmem
    -- a diffMapsGo entry's key is a base key, contradicting `hnew`
      · have := hasKey_of_mem k dv (diffMapsGo bs ms) hmem
        rw [hasKey_diffMapsGo k bs ms this] at hnew
        exact Bool.noConfusion hnew
      · obtain ⟨hmm, hnn, _⟩ := mem_diffNewKeys (k, dv) bs ms hmem
        have hlkm := lookupO_of_mem_nodup k dv ms hndm hmm
        simp only [hlkm, Option.getD_some]
        exact veq_refl dv (wfE_mem k dv ms hwem hmm)
  · rw [subE_eq_all]
    apply List.all_eq_true.mpr
    intro p hp
    rw [entOK_eq_veq]
    obtain ⟨k, mv⟩ := p
    have hlkm := lookupO_of_mem_nodup k mv ms hndm hp
    have hwmv : wfV mv = true := wfE_mem k mv ms hwem hp
    simp only [lookupO_mergedMap]
    cases hlkb : lookupO k bs with
    | some bv =>
      have hcore := mergeDiff_core bs ms IH hndb hweb hndm hwem hce k bv hlkb
      rw [hlkm] at hcore
      simp only [Option.getD_some] at hcore ⊢
      rw [veq_symm]
      exact hcore
    | none =>
      rw [hds, lookupO_append, lookupO_diffMapsGo k bs ms hndb,
        lookupO_diffNewKeys k bs ms hndm, hlkb, hlkm]
      have hlkV : lookupV k bs = Value.null := by rw [lookupV_eq, hlkb]; rfl
      cases hnm : isNullish mv with
      | true => simp [hlkV, hnm, isNullish, veq_null_right]
      | false => simp [hlkV, hnm, isNullish, veq_refl mv hwmv]

/-- Merge-after-diff for two well-formed, compatible lists. -/
theorem mergeDiff_list_case (bs ms : List Value)
    (IH : ∀ b' m', sizeOf b' < sizeOf bs → sizeOf m' < sizeOf ms →
      wfV b' = true → wfV m' = true → compat b' m' = true →
      veq (mergeV b' (diffV b' m')) m' = true)
    (hwbs : wfL bs = true) (hwms : wfL ms = true) (hcl : compatL bs ms = true) :
    veq (mergeV (Value.list bs) (diffV (Value.list bs) (Value.list ms)))
      (Value.list ms) = true := by
  simp only [diffV, mergeV, veq]
  set K := max bs.length ms.length with hK
  set ds := diffListsGo bs ms 0 K with hds
  have hlen : ms.length ≤ ds.length + bs.length := by
    have h := diffListsGo_length bs ms K 0 (by omega)
    simpa using h
  have main : ∀ n i, i + n = bs.length + ds.length →
      veqL (mergeListGo bs ds i n) (ms.drop i) = true := by
    intro n
    induction n with
    | zero =>
      intro i hi
      have hdrop : ms.drop i = [] := List.drop_eq_nil_of_le (by omega)
      rw [hdrop]
      simp [mergeListGo, veqL]
    | succ n ih =>
      intro i hi
      rw [mergeListGo_cons]
      have hlk := lookupO_diffListsGo bs ms K 0 i
      rw [← hds] at hlk
      by_cases him : i < ms.length
      · have hm : ms[i]? = some ms[i] := List.getElem?_eq_getElem him
        have hiK : i < K := by omega
        rw [hlk, if_pos ⟨by omega, by omega⟩]
        cases hb : bs[i]? with
        | some bv =>
          cases hveq : veq bv ms[i] with
          | true =>
            simp only [dEnt, hb, hm, hveq, if_true]
            rw [List.drop_eq_getElem_cons him]
            simp only [veqL, hb, Option.getD_some, Bool.and_eq_true]
            exact ⟨hveq, ih (i + 1) (by omega)⟩
          | false =>
            simp only [dEnt, hb, hm, hveq, Bool.false_eq_true, if_false]
            rw [List.drop_eq_getElem_cons him]
            simp only [veqL, hb, Option.getD_some, Bool.and_eq_true]
            refine ⟨?_, ih (i + 1) (by omega)⟩
            have h1 := sizeOf_getElem?_lt bs i bv hb
            have h2 := sizeOf_getElem?_lt ms i _ hm
            exact IH bv ms[i] (by omega) (by omega)
              (wfL_get i bv bs hwbs hb) (wfL_get i _ ms hwms hm)
              (compatL_get i bv ms[i] bs ms hcl hb hm)
        | none =>
          simp only [dEnt, hb, hm]
          rw [List.drop_eq_getElem_cons him]
          simp only [veqL, hb, Option.getD_none, mergeV_from_null, Bool.and_eq_true]
          exact ⟨veq_refl ms[i] (wfL_get i _ ms hwms hm), ih (i + 1) (by omega)⟩
      · have hdrop : ms.drop i = [] := List.drop_eq_nil_of_le (by omega)
        have hdrop1 : ms.drop (i + 1) = [] := List.drop_eq_nil_of_le (by omega)
        have hm : ms[i]? = none := List.getElem?_eq_none (by omega)
        rw [hdrop]
        have htail := ih (i + 1) (by omega)
        rw [hdrop1] at htail
        simp only [veqL, Bool.and_eq_true]
        refine ⟨?_, htail⟩
        by_cases hiK : i < K
        · rw [hlk, if_pos ⟨by omega, by omega⟩]
          cases hb : bs[i]? with
          | some bv => simp [dEnt, hb, hm, mergeV_to_null, isNullish]
          | none => simp [dEnt, hb, hm, isNullish]
        · rw [hlk, if_neg (by omega)]
          have hb : bs[i]? = none := List.getElem?_eq_none (by omega)
          simp [hb, isNullish]
  have hfinal := main (bs.length + ds.length) 0 (by omega)
  simpa using hfinal

/-- The merge/diff round trip, by strong induction on the sizes. -/
theorem mergeDiff_aux : ∀ N b m, sizeOf b + sizeOf m ≤ N →
    wfV b = true → wfV m = true → compat b m = true →
    veq (mergeV b (diffV b m)) m = true := by
  intro N
  induction N with
  | zero =>
    intro b m h _ _ _
    have := sizeOf_value_pos b
    have := sizeOf_value_pos m
    omega
  | succ N ih =>
    intro b m hsz hwb hwm hc
    cases b <;> cases m <;>
      first
        | (simp only [diffV, mergeV]; exact veq_refl _ hwm)
        | skip
    case map.map bs ms =>
      have hb : nodupKeys bs = true ∧ wfE bs = true := by simpa [wfV] using hwb
      have hm2 : nodupKeys ms = true ∧ wfE ms = true := by simpa [wfV] using hwm
      have hce : compatE bs ms = true := by simpa [compat] using hc
      simp at hsz
      exact mergeDiff_map_case bs ms
        (fun b' m' h1 h2 w1 w2 c => ih b' m' (by omega) w1 w2 c)
        hb.1 hb.2 hm2.1 hm2.2 hce
    case list.map bs ms => simp [compat] at hc
    case list.list bs ms =>
      have hb : wfL bs = true := by simpa [wfV] using hwb
      have hm2 : wfL ms = true := by simpa [wfV] using hwm
      have hcl : compatL bs ms = true := by simpa [compat] using hc
      simp at hsz
      exact mergeDiff_list_case bs ms
        (fun b' m' h1 h2 w1 w2 c => ih b' m' (by omega) w1 w2 c)
        hb hm2 hcl

/-- C2 counterexample: on `base = [1]` (a LIST tree) and
`modified = {"0": 2}` (a MAP tree) the round trip fails as stated: the
diff of the incompatible pair is the modified map itself, but
`object_merge` interprets any map diff sitting on a list base as an
index patch — the encoding chosen by the documented list-diff rules —
so the merge yields the list `[2]`, not the map `{"0": 2}`. -/
theorem merge_diff_list_map_counterexample :
    wfV (Value.list [Value.int 1]) = true ∧
    wfV (Value.map [("0", Value.int 2)]) = true ∧
    veq (mergeV (Value.list [Value.int 1])
          (diffV (Value.list [Value.int 1]) (Value.map [("0", Value.int 2)])))
        (Value.map [("0", Value.int 2)]) = false := by
  refine ⟨by simp [wfV, wfL], by simp [wfV, wfE, nodupKeys, hasKey], ?_⟩
  simp [diffV, mergeV, veq]

/-- C2 (amended with the compatibility restriction the counterexample
forces): for all well-formed Object trees `base` and `modified` such
that `modified` never holds a MAP at a position where `base` holds a
LIST, `object_merge(base, object_diff(base, modified))` is structurally
equal to `modified`, treating NULL values as equivalent to absence. -/
theorem merge_diff_round_trip (base modified : Value)
    (hwb : wfV base = true) (hwm : wfV modified = true)
    (hc : compat base modified = true) :
    veq (mergeV base (diffV base modified)) modified = true :=
  mergeDiff_aux (sizeOf base + sizeOf modified) base modified le_rfl hwb hwm hc

/-- Witness for C2 at concrete trees in the shape of scenario E:
`base = {"a": 1, "b": {"x": 2}}`,
`modified = {"a": 1, "b": {"y": 3}, "c": 4}`. -/
theorem merge_diff_round_trip_witness :
    wfV (Value.map [("a", Value.int 1), ("b", Value.map [("x", Value.int 2)])]) = true ∧
    wfV (Value.map [("a", Value.int 1), ("b", Value.map [("y", Value.int 3)]),
          ("c", Value.int 4)]) = true ∧
    compat (Value.map [("a", Value.int 1), ("b", Value.map [("x", Value.int 2)])])
      (Value.map [("a", Value.int 1), ("b", Value.map [("y", Value.int 3)]),
        ("c", Value.int 4)]) = true ∧
    veq (mergeV (Value.map [("a", Value.int 1), ("b", Value.map [("x", Value.int 2)])])
          (diffV (Value.map [("a", Value.int 1), ("b", Value.map [("x", Value.int 2)])])
            (Value.map [("a", Value.int 1), ("b", Value.map [("y", Value.int 3)]),
              ("c", Value.int 4)])))
        (Value.map [("a", Value.int 1), ("b", Value.map [("y", Value.int 3)]),
          ("c", Value.int 4)]) = true :=
  ⟨by simp [wfV, wfE, nodupKeys, hasKey],
   by simp [wfV, wfE, nodupKeys, hasKey],
   by simp [compat, compatE, lookupO],
   merge_diff_round_trip _ _
     (by simp [wfV, wfE, nodupKeys, hasKey])
     (by simp [wfV, wfE, nodupKeys, hasKey])
     (by simp [compat, compatE, lookupO])⟩

/-! ## Properties of the decoder machine -/

/-- C5: the claim states that `get_tokens_end` returns the position
just past the subtree rooted at `p`, treating `Map`, `List`, `Optional`
(and `BinaryData`) as prefixes that consume the next subtree.  On the
two-token value subtree `Optional I32` rooted at 0 the function stops
right after the `Optional` token and returns 1 instead of 2: the
`continue` in the prefix branches jumps to the loop head, whose
`depth == 0 && pos != begin` test exits immediately, contradicting the
code's own comment that the skip keeps the loop from exiting at zero
depth. -/
theorem get_tokens_end_stops_inside_optional_subtree :
    getTokensEnd [BTok.optional, BTok.i32] 0 = .ok 1 ∧
      GteRes.ok 1 ≠ GteRes.ok 2 := by
  decide

/-- C3: the claim states that on an `Optional` frame the decoder reads
the presence flag once and decodes the value subtree when the flag says
present.  Running the machine on schema `[Optional, I32]` and bytes
`01 07 00 00 00` (present, value 7): the frame is popped immediately
after the flag is read, the trace carries only the `optional(true)`
writer call, the reader consumed exactly 1 byte, and the value subtree
`[1,2)` was never decoded — the code skips to `value_tokens_end` on a
*present* flag and would decode the subtree on an absent one. -/
theorem load_binary_optional_present_skips_value :
    loadBinary ⟨[BTok.optional, BTok.i32]⟩ [1, 7, 0, 0, 0] =
      .ok ⟨[BTok.optional, BTok.i32], ⟨[1, 7, 0, 0, 0], 1, false, [], 0, 0⟩,
           [WOp.optional true], [⟨.noneT, 0, 0, false⟩], 2⟩ := by
  decide

/-- C4: the claim states that a variant whose label matches exactly one
`VariantNext` arm is decoded.  Running the machine on the one-arm
schema `VariantBegin{a} VariantNext{a} I32 VariantEnd` with bytes
choosing arm 0 (which matches label "a" uniquely), the decoder raises
`LoadException("Invalid binary schema")`: the `VariantNext` branch of
the scan loop falls through to the unconditional throw at the bottom of
the loop body, so every schema with at least one arm fails. -/
theorem load_binary_variant_always_raises :
    loadBinary ⟨[BTok.variantBegin ["a"], BTok.variantNext "a", BTok.i32,
                 BTok.variantEnd]⟩ [0, 0, 0, 0, 7, 0, 0, 0] =
      .err "Invalid binary schema" := by
  decide

/-- C6: the claim states that a `Binary` token with stride `s ≠ 0`
makes the decoder read a U64 element count and write `count * s`
payload bytes to the writer.  Running the machine on schema
`[Binary{4}, I32, I32]` with a count of 1 followed by 4 payload bytes:
the count is read (the reader stops at offset 8), but the
`stride != 0` branch is empty, so no writer call is made, the payload
bytes are never consumed, and `token_pos` is advanced twice, silently
skipping the next schema token. -/
theorem load_binary_strided_binary_writes_nothing :
    loadBinary ⟨[BTok.binary 4, BTok.i32, BTok.i32]⟩
        [1, 0, 0, 0, 0, 0, 0, 0, 9, 9, 9, 9] =
      .ok ⟨[BTok.binary 4, BTok.i32, BTok.i32],
           ⟨[1, 0, 0, 0, 0, 0, 0, 0, 9, 9, 9, 9], 8, false, [], 0, 4⟩,
           [], [⟨.noneT, 0, 0, false⟩], 3⟩ := by
  decide

/-- C1: the claim states that `load_binary(schema_of<T>(), write_binary(v))`
equals `write_object(v)` as Objects for every visitable `T`.  For
`T = std::int32_t` and `v = 5`: the primitive dispatch case for
`std::int32_t` at the tail of the decoder is an empty block, so the
machine consumes the token without reading the 4 encoded bytes or
calling the writer, and returns the untouched default (empty) Object,
whereas `write_object(5)` is an INT64 node holding 5. -/
theorem load_binary_drops_i32_primitive :
    loadBinaryObject schemaOfI32 (writeBinaryI32 5) = none ∧
      writeObjectI32 5 = Value.int 5 ∧
      (none : Option Value) ≠ some (Value.int 5) := by
  refine ⟨rfl, rfl, ?_⟩
  simp

/-! ## Properties of the Token label table -/

/-- C7: the claim states that the `Token` label table covers every kind
of the token alphabet and that a Schema therefore round-trips through
the packer protocol.  The table in `src/schema/token.cpp` has 23
entries and stops at "list": the `Map` alternative has variant index
23, so `variant_to_label` on a `Map` token reads one past the end of
the table (undefined behaviour, `none` here) and no schema containing a
`Map` token can be written, let alone round-tripped. -/
theorem token_label_table_misses_map :
    tokenLabels.length = 23 ∧ tokenIndex Token.map = 23 ∧
      tokenToLabel Token.map = none ∧ tokenToLabel Token.list = some "list" := by
  decide

/-! ## Properties of the string primitive packer -/

/-- C8: when the reader cannot produce a string, `pack(std::string)` in
MODE_READ clears the target — the resulting value is the empty string —
and the reader records the failure in its flag instead of raising. -/
theorem read_string_failure_zeroes_value :
    ∀ (r : MiniReader) (v : String), r.avail = none →
      (packStringRead r v).2 = "" ∧ (packStringRead r v).1.error = true := by
  rintro ⟨a, e⟩ v h
  simp only at h
  subst h
  exact ⟨rfl, rfl⟩

/-- Witness for C8 at a concrete failed reader. -/
theorem read_string_failure_zeroes_value_witness :
    (MiniReader.mk none false).avail = none ∧
      (packStringRead ⟨none, false⟩ "previous").2 = "" :=
  ⟨rfl, (read_string_failure_zeroes_value ⟨none, false⟩ "previous" rfl).1⟩

/-! ## Properties of the labelled-variant helpers -/

/-- The iterator returns the first index in its window whose label
matches. -/
theorem variantFromLabelIter_finds (labels : List String) (label : String) (i : Nat)
    (hfound : labels.getD i "" = label)
    (hmin : ∀ j, j < i → labels.getD j "" ≠ label) :
    ∀ n index, index ≤ i → i < index + n →
      variantFromLabelIter labels label index n = some i := by
  intro n
  induction n with
  | zero => intro index h1 h2; omega
  | succ m ih =>
    intro index h1 h2
    by_cases he : index = i
    · subst he
      simp only [variantFromLabelIter, if_pos hfound]
    · have hlt : index < i := by omega
      have hne := hmin index hlt
      simp only [variantFromLabelIter, if_neg hne]
      exact ih (index + 1) (by omega) (by omega)

/-- The iterator returns `none` when no label in its window matches. -/
theorem variantFromLabelIter_misses (labels : List String) (label : String) :
    ∀ n index, (∀ j, index ≤ j → j < index + n → labels.getD j "" ≠ label) →
      variantFromLabelIter labels label index n = none := by
  intro n
  induction n with
  | zero => intro index _; rfl
  | succ m ih =>
    intro index h
    have hne := h index (by omega) (by omega)
    simp only [variantFromLabelIter, if_neg hne]
    exact ih (index + 1) (fun j hj1 hj2 => h j (by omega) (by omega))

/-- C9 counterexample: with the (legal) duplicated label table
`{"a", "a"}` and `i = 1`, `variant_from_label` on `labels[1]` returns
the alternative at position 0, not position 1 — the iterator stops at
the first matching label. -/
theorem variant_from_label_duplicate_labels :
    variantFromLabel ["a", "a"] (["a", "a"].getD 1 "") = some 0 ∧
      variantFromLabel ["a", "a"] (["a", "a"].getD 1 "") ≠ some 1 := by
  decide

/-- C9 (amended with pairwise-distinct labels): for a label table
without duplicates, `variant_from_label` on `labels[i]` yields the
default-constructed alternative at position `i`, whose
`variant_to_label` is `labels[i]` again; a label outside the table
yields `nullopt`. -/
theorem variant_label_round_trip (labels : List String) (hnd : labels.Nodup) :
    (∀ i, (h : i < labels.length) →
        variantFromLabel labels (labels.get ⟨i, h⟩) = some i ∧
        variantToLabelIdx labels i = labels.get ⟨i, h⟩) ∧
    (∀ lab, lab ∉ labels → variantFromLabel labels lab = none) := by
  have hgetD : ∀ j (hj : j < labels.length), labels.getD j "" = labels.get ⟨j, hj⟩ := by
    intro j hj
    simp [List.getD_eq_getElem?_getD, List.getElem?_eq_getElem hj]
  constructor
  · intro i h
    constructor
    · refine variantFromLabelIter_finds labels _ i (hgetD i h) ?_ labels.length 0
        (by omega) (by omega)
      intro j hj
      have hjlen : j < labels.length := by omega
      rw [hgetD j hjlen]
      intro heq
      have hji : (⟨j, hjlen⟩ : Fin labels.length) = ⟨i, h⟩ :=
        (List.Nodup.get_inj_iff hnd).mp heq
      have : j = i := by simpa using hji
      omega
    · exact hgetD i h
  · intro lab hlab
    refine variantFromLabelIter_misses labels lab labels.length 0 ?_
    intro j _ hj2
    have hjlen : j < labels.length := by omega
    rw [hgetD j hjlen]
    intro heq
    exact hlab (heq ▸ labels.get_mem j hjlen)

/-- Witness for C9 at the concrete table of the Shape example. -/
theorem variant_label_round_trip_witness :
    (["circle", "rect"] : List String).Nodup ∧
      variantFromLabel ["circle", "rect"] "rect" = some 1 :=
  ⟨by decide,
   ((variant_label_round_trip ["circle", "rect"] (by decide)).1 1 (by decide)).1⟩

/-! ## Properties of Object_::get_if -/

/-- C10: `get_if<T>` on the empty handle (`index = -1`) returns the
null pointer for every requested type, every arena (including the null
arena pointer of a default-constructed handle, which the guard keeps
from being dereferenced) and both the const and mutable handle
flavours. -/
theorem get_if_empty_handle_returns_null :
    ∀ (c : Bool) (st : Option (List Value)) (k : VKind),
      (ObjectHandle.mk c st (-1)).get_if k = none := by
  intro c st k
  rfl

end Datapack
